import Mathlib

/-!
# Verification of the MrMustard recursive Fock-amplitude engine and Fock-space algebra

This file embeds, in Lean 4 over ℂ and ℝ, the core data and operations of the
MrMustard repository that the specification talks about:

* the recursive Fock-amplitude engine (renormalized multidimensional Hermite
  polynomials) together with its cutoff tensor view,
* the reverse-mode gradient of the engine with respect to the scalar `C`
  (from `TFCircuitBackend._recursive_state`),
* the Gaussian-to-(A, B, C) converter (`TFCircuitBackend._ABC` / `_Qmat`),
* the Fock-space algebra functions `purity`, `ket_to_dm`, `dm_to_ket`
  (from `mrmustard/physics/fock.py`), and
* the stub operations of the computational interface
  (`NPMath.hermite_renormalized_diagonal`, `SymplecticData.__truediv__`).

Multi-indices over `M` axes are functions `Fin M → ℕ`; tensors are functions
from multi-indices to ℂ with entries outside the cutoff box equal to `0`.
-/

namespace MrMustard

open Finset

open scoped Matrix

/-- Total photon number (the sum of a multi-index). -/
def wt {M : ℕ} (n : Fin M → ℕ) : ℕ := ∑ i, n i

/-- Decrement a multi-index at axis `k` (truncated at 0, as the fill never
decrements an axis that is already 0 except under a vanishing coefficient). -/
def dec {M : ℕ} (n : Fin M → ℕ) (k : Fin M) : Fin M → ℕ :=
  Function.update n k (n k - 1)

/-- The set of axes with a strictly positive index. -/
def posIdx {M : ℕ} (n : Fin M → ℕ) : Finset (Fin M) :=
  Finset.univ.filter (fun i => 0 < n i)

theorem dec_apply {M : ℕ} (n : Fin M → ℕ) (k j : Fin M) :
    dec n k j = if j = k then n k - 1 else n j := by
  simp [dec, Function.update_apply]

theorem dec_apply_self {M : ℕ} (n : Fin M → ℕ) (k : Fin M) :
    dec n k k = n k - 1 := by simp [dec_apply]

theorem dec_apply_ne {M : ℕ} (n : Fin M → ℕ) {k j : Fin M} (h : j ≠ k) :
    dec n k j = n j := by simp [dec_apply, h]

theorem dec_comm {M : ℕ} (n : Fin M → ℕ) (j k : Fin M) :
    dec (dec n j) k = dec (dec n k) j := by
  funext i
  by_cases hjk : j = k
  · subst hjk; rfl
  · simp only [dec_apply]
    by_cases hij : i = j <;> by_cases hik : i = k <;>
      simp_all [dec_apply]

theorem mem_posIdx {M : ℕ} {n : Fin M → ℕ} {k : Fin M} :
    k ∈ posIdx n ↔ 0 < n k := by simp [posIdx]

theorem posIdx_nonempty {M : ℕ} {n : Fin M → ℕ} {k : Fin M} (h : 0 < n k) :
    (posIdx n).Nonempty := ⟨k, mem_posIdx.mpr h⟩

theorem wt_dec_add_one {M : ℕ} {n : Fin M → ℕ} {k : Fin M} (h : 0 < n k) :
    wt (dec n k) + 1 = wt n := by
  unfold wt dec
  rw [Finset.sum_update_of_mem (Finset.mem_univ k), Finset.sdiff_singleton_eq_erase]
  rw [← Finset.add_sum_erase _ n (Finset.mem_univ k)]
  omega

theorem wt_dec_le {M : ℕ} (n : Fin M → ℕ) (k : Fin M) :
    wt (dec n k) ≤ wt n := by
  unfold wt
  refine Finset.sum_le_sum fun i _ => ?_
  by_cases hik : i = k
  · subst hik; rw [dec_apply_self]; omega
  · exact (dec_apply_ne _ hik).le

theorem wt_dec_lt {M : ℕ} {n : Fin M → ℕ} {k : Fin M} (h : 0 < n k) :
    wt (dec n k) < wt n := by
  have := wt_dec_add_one h; omega

theorem min'_posIdx_pos {M : ℕ} {n : Fin M → ℕ} (h : (posIdx n).Nonempty) :
    0 < n ((posIdx n).min' h) :=
  mem_posIdx.mp ((posIdx n).min'_mem h)

/-- Modelled from the spec: the square-root-free companion recursion of the
amplitude engine (the engine's values multiplied by `√(n!)`, i.e. the Taylor
coefficients of `C·exp(½ zᵀAz + zᵀB)` times `n!/√(n!)`).  The fill decrements
the least positive axis; terms whose index would go negative carry a vanishing
natural-number coefficient. -/
noncomputable def Hrec {M : ℕ} (A : Fin M → Fin M → ℂ) (B : Fin M → ℂ) (C : ℂ)
    (n : Fin M → ℕ) : ℂ :=
  if h : (posIdx n).Nonempty then
    B ((posIdx n).min' h) * Hrec A B C (dec n ((posIdx n).min' h)) +
      ∑ j, ((dec n ((posIdx n).min' h) j : ℕ) : ℂ) * A ((posIdx n).min' h) j *
        Hrec A B C (dec (dec n ((posIdx n).min' h)) j)
  else C
termination_by wt n
decreasing_by
  · exact wt_dec_lt (min'_posIdx_pos h)
  · exact lt_of_le_of_lt (wt_dec_le _ _) (wt_dec_lt (min'_posIdx_pos h))

/-- One-step expansion of `Hrec` along a chosen axis `k`. -/
noncomputable def expandAt {M : ℕ} (A : Fin M → Fin M → ℂ) (B : Fin M → ℂ) (C : ℂ)
    (n : Fin M → ℕ) (k : Fin M) : ℂ :=
  B k * Hrec A B C (dec n k) +
    ∑ j, ((dec n k j : ℕ) : ℂ) * A k j * Hrec A B C (dec (dec n k) j)

theorem Hrec_of_ne {M : ℕ} (A : Fin M → Fin M → ℂ) (B : Fin M → ℂ) (C : ℂ)
    {n : Fin M → ℕ} (h : (posIdx n).Nonempty) :
    Hrec A B C n = expandAt A B C n ((posIdx n).min' h) := by
  rw [Hrec.eq_def]
  simp [h, expandAt]

theorem Hrec_of_zero {M : ℕ} (A : Fin M → Fin M → ℂ) (B : Fin M → ℂ) (C : ℂ)
    {n : Fin M → ℕ} (h : ¬ (posIdx n).Nonempty) :
    Hrec A B C n = C := by
  rw [Hrec.eq_def]
  simp [h]

/-- The common value of the two-step expansion of `Hrec` along two distinct axes
`k`, `k'`, expressed in terms of the doubly decremented index `p`. -/
noncomputable def canonAt {M : ℕ} (A : Fin M → Fin M → ℂ) (B : Fin M → ℂ) (C : ℂ)
    (p : Fin M → ℕ) (k k' : Fin M) : ℂ :=
  B k * B k' * Hrec A B C p + A k k' * Hrec A B C p +
    (∑ j, ((p j : ℕ) : ℂ) * (B k * A k' j + B k' * A k j) * Hrec A B C (dec p j)) +
    ∑ j, ∑ l, ((p j : ℕ) : ℂ) * ((dec p j l : ℕ) : ℂ) * A k j * A k' l *
      Hrec A B C (dec (dec p j) l)

theorem coeff_swap {M : ℕ} (p : Fin M → ℕ) (j l : Fin M) :
    ((p j : ℕ) : ℂ) * ((dec p j l : ℕ) : ℂ) = ((p l : ℕ) : ℂ) * ((dec p l j : ℕ) : ℂ) := by
  by_cases hjl : j = l
  · subst hjl; rfl
  · rw [dec_apply_ne p (Ne.symm hjl), dec_apply_ne p hjl, mul_comm]

theorem canonAt_symm {M : ℕ} {A : Fin M → Fin M → ℂ} {B : Fin M → ℂ} {C : ℂ}
    (hA : ∀ i j, A i j = A j i) (p : Fin M → ℕ) (k k' : Fin M) :
    canonAt A B C p k k' = canonAt A B C p k' k := by
  have h3 : (∑ j, ((p j : ℕ) : ℂ) * (B k * A k' j + B k' * A k j) * Hrec A B C (dec p j))
      = ∑ j, ((p j : ℕ) : ℂ) * (B k' * A k j + B k * A k' j) * Hrec A B C (dec p j) :=
    Finset.sum_congr rfl fun j _ => by ring
  have h4 : (∑ j, ∑ l, ((p j : ℕ) : ℂ) * ((dec p j l : ℕ) : ℂ) * A k j * A k' l *
        Hrec A B C (dec (dec p j) l))
      = ∑ j, ∑ l, ((p j : ℕ) : ℂ) * ((dec p j l : ℕ) : ℂ) * A k' j * A k l *
        Hrec A B C (dec (dec p j) l) := by
    rw [Finset.sum_comm]
    refine Finset.sum_congr rfl fun x _ => Finset.sum_congr rfl fun y _ => ?_
    rw [dec_comm p y x, coeff_swap p y x]
    ring
  unfold canonAt
  rw [h3, h4, hA k k']
  ring

theorem expand_canonAt {M : ℕ} {A : Fin M → Fin M → ℂ} {B : Fin M → ℂ} {C : ℂ}
    (n : Fin M → ℕ) (k k' : Fin M) (hkk : k ≠ k') (hk : 0 < n k) (hk' : 0 < n k')
    (IH : ∀ m : Fin M → ℕ, wt m < wt n → ∀ t, 0 < m t →
      Hrec A B C m = expandAt A B C m t) :
    expandAt A B C n k = canonAt A B C (dec (dec n k) k') k k' := by
  have hk'k : k' ≠ k := Ne.symm hkk
  have hmk' : dec n k k' = n k' := dec_apply_ne n hk'k
  have hwtm : wt (dec n k) < wt n := wt_dec_lt hk
  have hwtp : wt (dec (dec n k) k') < wt n := lt_of_le_of_lt (wt_dec_le _ _) hwtm
  have stepA : Hrec A B C (dec n k) = B k' * Hrec A B C (dec (dec n k) k') +
      ∑ l, ((dec (dec n k) k' l : ℕ) : ℂ) * A k' l *
        Hrec A B C (dec (dec (dec n k) k') l) := by
    rw [IH _ hwtm k' (by rw [hmk']; exact hk')]; rfl
  have stepB : ∀ j, j ≠ k' → Hrec A B C (dec (dec n k) j)
      = B k' * Hrec A B C (dec (dec (dec n k) k') j) +
        ∑ l, ((dec (dec (dec n k) k') j l : ℕ) : ℂ) * A k' l *
          Hrec A B C (dec (dec (dec (dec n k) k') j) l) := by
    intro j hj
    have hpos : 0 < dec (dec n k) j k' := by
      rw [dec_apply_ne _ (Ne.symm hj), hmk']; exact hk'
    rw [IH _ (lt_of_le_of_lt (wt_dec_le _ _) hwtm) k' hpos]
    show B k' * Hrec A B C (dec (dec (dec n k) j) k') +
        ∑ l, ((dec (dec (dec n k) j) k' l : ℕ) : ℂ) * A k' l *
          Hrec A B C (dec (dec (dec (dec n k) j) k') l) = _
    rw [dec_comm (dec n k) j k']
  have hpk' : ((n k' : ℕ) : ℂ) = ((dec (dec n k) k' k' : ℕ) : ℂ) + 1 := by
    rw [dec_apply_self, hmk', Nat.cast_sub (by omega : 1 ≤ n k')]
    push_cast
    ring
  have stepD : ((dec (dec n k) k' k' : ℕ) : ℂ) * Hrec A B C (dec (dec n k) k')
      = ((dec (dec n k) k' k' : ℕ) : ℂ) *
        (B k' * Hrec A B C (dec (dec (dec n k) k') k') +
         ∑ l, ((dec (dec (dec n k) k') k' l : ℕ) : ℂ) * A k' l *
           Hrec A B C (dec (dec (dec (dec n k) k') k') l)) := by
    rcases Nat.eq_zero_or_pos (dec (dec n k) k' k') with h0 | hpos
    · rw [h0]; simp
    · rw [IH _ hwtp k' hpos]; rfl
  have hterm : ((n k' : ℕ) : ℂ) * A k k' * Hrec A B C (dec (dec n k) k')
      = A k k' * Hrec A B C (dec (dec n k) k')
        + A k k' * (((dec (dec n k) k' k' : ℕ) : ℂ) *
          (B k' * Hrec A B C (dec (dec (dec n k) k') k') +
           ∑ l, ((dec (dec (dec n k) k') k' l : ℕ) : ℂ) * A k' l *
             Hrec A B C (dec (dec (dec (dec n k) k') k') l))) := by
    rw [hpk', ← stepD]
    ring
  have hsplit : (∑ j, ((dec n k j : ℕ) : ℂ) * A k j * Hrec A B C (dec (dec n k) j))
      = (B k' * (∑ j ∈ Finset.univ.erase k', ((dec (dec n k) k' j : ℕ) : ℂ) * A k j *
            Hrec A B C (dec (dec (dec n k) k') j))
         + ∑ j ∈ Finset.univ.erase k', ((dec (dec n k) k' j : ℕ) : ℂ) * A k j *
            (∑ l, ((dec (dec (dec n k) k') j l : ℕ) : ℂ) * A k' l *
              Hrec A B C (dec (dec (dec (dec n k) k') j) l)))
        + ((n k' : ℕ) : ℂ) * A k k' * Hrec A B C (dec (dec n k) k') := by
    rw [← Finset.sum_erase_add _ _ (Finset.mem_univ k')]
    congr 1
    · rw [Finset.mul_sum, ← Finset.sum_add_distrib]
      refine Finset.sum_congr rfl fun j hj => ?_
      have hj' : j ≠ k' := Finset.ne_of_mem_erase hj
      rw [stepB j hj', dec_apply_ne (dec n k) hj']
      ring
    · rw [hmk']
  have hS3 : (∑ j, ((dec (dec n k) k' j : ℕ) : ℂ) * (B k * A k' j + B k' * A k j) *
        Hrec A B C (dec (dec (dec n k) k') j))
      = B k * (∑ j, ((dec (dec n k) k' j : ℕ) : ℂ) * A k' j *
            Hrec A B C (dec (dec (dec n k) k') j))
        + (B k' * (∑ j ∈ Finset.univ.erase k', ((dec (dec n k) k' j : ℕ) : ℂ) * A k j *
            Hrec A B C (dec (dec (dec n k) k') j))
           + B k' * (((dec (dec n k) k' k' : ℕ) : ℂ) * A k k' *
              Hrec A B C (dec (dec (dec n k) k') k'))) := by
    calc (∑ j, ((dec (dec n k) k' j : ℕ) : ℂ) * (B k * A k' j + B k' * A k j) *
          Hrec A B C (dec (dec (dec n k) k') j))
        = ∑ j, (B k * (((dec (dec n k) k' j : ℕ) : ℂ) * A k' j *
              Hrec A B C (dec (dec (dec n k) k') j))
            + B k' * (((dec (dec n k) k' j : ℕ) : ℂ) * A k j *
              Hrec A B C (dec (dec (dec n k) k') j))) :=
          Finset.sum_congr rfl fun j _ => by ring
      _ = (∑ j, B k * (((dec (dec n k) k' j : ℕ) : ℂ) * A k' j *
              Hrec A B C (dec (dec (dec n k) k') j)))
          + ∑ j, B k' * (((dec (dec n k) k' j : ℕ) : ℂ) * A k j *
              Hrec A B C (dec (dec (dec n k) k') j)) := Finset.sum_add_distrib
      _ = B k * (∑ j, ((dec (dec n k) k' j : ℕ) : ℂ) * A k' j *
              Hrec A B C (dec (dec (dec n k) k') j))
          + B k' * ∑ j, ((dec (dec n k) k' j : ℕ) : ℂ) * A k j *
              Hrec A B C (dec (dec (dec n k) k') j) := by
          rw [← Finset.mul_sum, ← Finset.mul_sum]
      _ = B k * (∑ j, ((dec (dec n k) k' j : ℕ) : ℂ) * A k' j *
              Hrec A B C (dec (dec (dec n k) k') j))
          + B k' * ((∑ j ∈ Finset.univ.erase k', ((dec (dec n k) k' j : ℕ) : ℂ) * A k j *
              Hrec A B C (dec (dec (dec n k) k') j))
            + ((dec (dec n k) k' k' : ℕ) : ℂ) * A k k' *
              Hrec A B C (dec (dec (dec n k) k') k')) := by
          rw [Finset.sum_erase_add Finset.univ
            (fun j => ((dec (dec n k) k' j : ℕ) : ℂ) * A k j *
              Hrec A B C (dec (dec (dec n k) k') j)) (Finset.mem_univ k')]
      _ = _ := by ring
  have hS4 : (∑ j, ∑ l, ((dec (dec n k) k' j : ℕ) : ℂ) *
        ((dec (dec (dec n k) k') j l : ℕ) : ℂ) * A k j * A k' l *
        Hrec A B C (dec (dec (dec (dec n k) k') j) l))
      = (∑ j ∈ Finset.univ.erase k', ((dec (dec n k) k' j : ℕ) : ℂ) * A k j *
          (∑ l, ((dec (dec (dec n k) k') j l : ℕ) : ℂ) * A k' l *
            Hrec A B C (dec (dec (dec (dec n k) k') j) l)))
        + ((dec (dec n k) k' k' : ℕ) : ℂ) * A k k' *
          (∑ l, ((dec (dec (dec n k) k') k' l : ℕ) : ℂ) * A k' l *
            Hrec A B C (dec (dec (dec (dec n k) k') k') l)) := by
    calc (∑ j, ∑ l, ((dec (dec n k) k' j : ℕ) : ℂ) *
          ((dec (dec (dec n k) k') j l : ℕ) : ℂ) * A k j * A k' l *
          Hrec A B C (dec (dec (dec (dec n k) k') j) l))
        = ∑ j, ((dec (dec n k) k' j : ℕ) : ℂ) * A k j *
            (∑ l, ((dec (dec (dec n k) k') j l : ℕ) : ℂ) * A k' l *
              Hrec A B C (dec (dec (dec (dec n k) k') j) l)) := by
          refine Finset.sum_congr rfl fun j _ => ?_
          rw [Finset.mul_sum]
          exact Finset.sum_congr rfl fun l _ => by ring
      _ = _ := by
          rw [← Finset.sum_erase_add Finset.univ
            (fun j => ((dec (dec n k) k' j : ℕ) : ℂ) * A k j *
              (∑ l, ((dec (dec (dec n k) k') j l : ℕ) : ℂ) * A k' l *
                Hrec A B C (dec (dec (dec (dec n k) k') j) l))) (Finset.mem_univ k')]
  calc expandAt A B C n k
      = B k * Hrec A B C (dec n k)
        + ∑ j, ((dec n k j : ℕ) : ℂ) * A k j * Hrec A B C (dec (dec n k) j) := rfl
    _ = B k * (B k' * Hrec A B C (dec (dec n k) k') +
          ∑ l, ((dec (dec n k) k' l : ℕ) : ℂ) * A k' l *
            Hrec A B C (dec (dec (dec n k) k') l))
        + ((B k' * (∑ j ∈ Finset.univ.erase k', ((dec (dec n k) k' j : ℕ) : ℂ) * A k j *
              Hrec A B C (dec (dec (dec n k) k') j))
           + ∑ j ∈ Finset.univ.erase k', ((dec (dec n k) k' j : ℕ) : ℂ) * A k j *
              (∑ l, ((dec (dec (dec n k) k') j l : ℕ) : ℂ) * A k' l *
                Hrec A B C (dec (dec (dec (dec n k) k') j) l)))
          + ((n k' : ℕ) : ℂ) * A k k' * Hrec A B C (dec (dec n k) k')) := by
        rw [stepA, hsplit]
    _ = B k * (B k' * Hrec A B C (dec (dec n k) k') +
          ∑ l, ((dec (dec n k) k' l : ℕ) : ℂ) * A k' l *
            Hrec A B C (dec (dec (dec n k) k') l))
        + ((B k' * (∑ j ∈ Finset.univ.erase k', ((dec (dec n k) k' j : ℕ) : ℂ) * A k j *
              Hrec A B C (dec (dec (dec n k) k') j))
           + ∑ j ∈ Finset.univ.erase k', ((dec (dec n k) k' j : ℕ) : ℂ) * A k j *
              (∑ l, ((dec (dec (dec n k) k') j l : ℕ) : ℂ) * A k' l *
                Hrec A B C (dec (dec (dec (dec n k) k') j) l)))
          + (A k k' * Hrec A B C (dec (dec n k) k')
             + A k k' * (((dec (dec n k) k' k' : ℕ) : ℂ) *
               (B k' * Hrec A B C (dec (dec (dec n k) k') k') +
                ∑ l, ((dec (dec (dec n k) k') k' l : ℕ) : ℂ) * A k' l *
                  Hrec A B C (dec (dec (dec (dec n k) k') k') l))))) := by
        rw [hterm]
    _ = canonAt A B C (dec (dec n k) k') k k' := by
        unfold canonAt
        rw [hS3, hS4]
        ring

theorem Hrec_exchange {M : ℕ} {A : Fin M → Fin M → ℂ} {B : Fin M → ℂ} {C : ℂ}
    (hA : ∀ i j, A i j = A j i) (n : Fin M → ℕ) (k : Fin M) (hk : 0 < n k) :
    Hrec A B C n = expandAt A B C n k := by
  have main : ∀ N (n : Fin M → ℕ), wt n ≤ N → ∀ k, 0 < n k →
      Hrec A B C n = expandAt A B C n k := by
    intro N
    induction N with
    | zero =>
      intro n hw k hk
      exfalso
      have hle : n k ≤ wt n :=
        Finset.single_le_sum (fun i _ => Nat.zero_le _) (Finset.mem_univ k)
      omega
    | succ N IH =>
      intro n hw k hk
      have hne : (posIdx n).Nonempty := posIdx_nonempty hk
      have hIH : ∀ m : Fin M → ℕ, wt m < wt n → ∀ t, 0 < m t →
          Hrec A B C m = expandAt A B C m t := fun m hm t ht => IH m (by omega) t ht
      by_cases hkk : k = (posIdx n).min' hne
      · rw [Hrec_of_ne A B C hne, hkk]
      · have hk0 : 0 < n ((posIdx n).min' hne) := min'_posIdx_pos hne
        rw [Hrec_of_ne A B C hne]
        calc expandAt A B C n ((posIdx n).min' hne)
            = canonAt A B C (dec (dec n ((posIdx n).min' hne)) k) ((posIdx n).min' hne) k :=
              expand_canonAt n _ k (Ne.symm hkk) hk0 hk hIH
          _ = canonAt A B C (dec (dec n ((posIdx n).min' hne)) k) k ((posIdx n).min' hne) :=
              canonAt_symm hA _ _ _
          _ = canonAt A B C (dec (dec n k) ((posIdx n).min' hne)) k ((posIdx n).min' hne) := by
              rw [dec_comm]
          _ = expandAt A B C n k := (expand_canonAt n k _ hkk hk hk0 hIH).symm
  exact main (wt n) n le_rfl k hk

/-- Modelled from the spec: the recursive amplitude engine
(`fill_amplitudes` / `strategies.vanilla`, whose implementation is not part of
the provided sources; only its callers `TFCircuitBackend._recursive_state` and
`NPMath.hermite_renormalized` are).  `G[0] = C`; for `n ≠ 0` the engine
decrements the least positive axis `k` and sets
`G[n] = (B k · G[m] + Σ_j A k j · √(m j) · G[m - e_j]) / √(n k)` with
`m = n - e_k`, omitting the terms whose index would go negative.  The square
root on naturals is abstracted as a parameter `sq`. -/
noncomputable def Grec {M : ℕ} (sq : ℕ → ℂ) (A : Fin M → Fin M → ℂ)
    (B : Fin M → ℂ) (C : ℂ) (n : Fin M → ℕ) : ℂ :=
  if h : (posIdx n).Nonempty then
    (B ((posIdx n).min' h) * Grec sq A B C (dec n ((posIdx n).min' h)) +
      ∑ j, (if 0 < dec n ((posIdx n).min' h) j then
          A ((posIdx n).min' h) j * sq (dec n ((posIdx n).min' h) j) *
            Grec sq A B C (dec (dec n ((posIdx n).min' h)) j)
        else 0)) / sq (n ((posIdx n).min' h))
  else C
termination_by wt n
decreasing_by
  · exact wt_dec_lt (min'_posIdx_pos h)
  · exact lt_of_le_of_lt (wt_dec_le _ _) (wt_dec_lt (min'_posIdx_pos h))

theorem Grec_of_ne {M : ℕ} (sq : ℕ → ℂ) (A : Fin M → Fin M → ℂ) (B : Fin M → ℂ)
    (C : ℂ) {n : Fin M → ℕ} (h : (posIdx n).Nonempty) :
    Grec sq A B C n =
      (B ((posIdx n).min' h) * Grec sq A B C (dec n ((posIdx n).min' h)) +
        ∑ j, (if 0 < dec n ((posIdx n).min' h) j then
            A ((posIdx n).min' h) j * sq (dec n ((posIdx n).min' h) j) *
              Grec sq A B C (dec (dec n ((posIdx n).min' h)) j)
          else 0)) / sq (n ((posIdx n).min' h)) := by
  rw [Grec.eq_def]
  simp [h]

theorem Grec_of_zero {M : ℕ} (sq : ℕ → ℂ) (A : Fin M → Fin M → ℂ) (B : Fin M → ℂ)
    (C : ℂ) {n : Fin M → ℕ} (h : ¬ (posIdx n).Nonempty) :
    Grec sq A B C n = C := by
  rw [Grec.eq_def]
  simp [h]

/-- The square root of a natural number, as a complex scalar (the concrete `sq`
used by the engine). -/
noncomputable def nsqrt (t : ℕ) : ℂ := ((Real.sqrt t : ℝ) : ℂ)

/-- The renormalized multidimensional Hermite polynomial
(`NPMath.hermite_renormalized` / the tensor filled by
`TFCircuitBackend._recursive_state`), at one multi-index. -/
noncomputable def hermite_renormalized {M : ℕ} (A : Fin M → Fin M → ℂ)
    (B : Fin M → ℂ) (C : ℂ) (n : Fin M → ℕ) : ℂ :=
  Grec nsqrt A B C n

/-- Modelled from the spec: `fill_fock_amplitudes (A, B, C, cutoffs)`
(the engine's public entry; the spec's `CutoffSpec` semantics: axis `i` holds
photon numbers `0..cutoffs i` inclusive).  The dense tensor is the function
sending each multi-index within the cutoff box to its amplitude, and every
multi-index outside the box to `0` (those entries are never computed). -/
noncomputable def fill_fock_amplitudes {M : ℕ} (A : Fin M → Fin M → ℂ)
    (B : Fin M → ℂ) (C : ℂ) (cutoffs : Fin M → ℕ) (n : Fin M → ℕ) : ℂ :=
  if ∀ i, n i ≤ cutoffs i then hermite_renormalized A B C n else 0

/-- Product `sq 1 · sq 2 ⋯ sq t` (the `sq`-factorial of one axis). -/
noncomputable def sprod (sq : ℕ → ℂ) (t : ℕ) : ℂ := ∏ s ∈ Finset.range t, sq (s + 1)

/-- The multi-index `sq`-factorial `∏ i, sq 1 ⋯ sq (n i)` (equals `√(n!)` for
the concrete square root). -/
noncomputable def sqfact {M : ℕ} (sq : ℕ → ℂ) (n : Fin M → ℕ) : ℂ :=
  ∏ i, sprod sq (n i)

theorem nsqrt_mul_self (t : ℕ) : nsqrt t * nsqrt t = (t : ℂ) := by
  unfold nsqrt
  rw [← Complex.ofReal_mul, Real.mul_self_sqrt (Nat.cast_nonneg t)]
  push_cast
  rfl

theorem sq_pos_ne_zero {sq : ℕ → ℂ} (hsq : ∀ t, sq t * sq t = (t : ℂ)) {t : ℕ}
    (ht : 0 < t) : sq t ≠ 0 := by
  intro h0
  have := hsq t
  rw [h0, mul_zero] at this
  have : (t : ℂ) = 0 := this.symm
  rw [Nat.cast_eq_zero] at this
  omega

theorem posIdx_empty_iff {M : ℕ} {n : Fin M → ℕ} :
    ¬ (posIdx n).Nonempty ↔ ∀ i, n i = 0 := by
  rw [Finset.not_nonempty_iff_eq_empty, Finset.eq_empty_iff_forall_not_mem]
  constructor
  · intro h i
    have := h i
    rw [mem_posIdx] at this
    omega
  · intro h i hi
    rw [mem_posIdx] at hi
    have := h i
    omega

theorem sqfact_of_zero {M : ℕ} (sq : ℕ → ℂ) {n : Fin M → ℕ} (h : ∀ i, n i = 0) :
    sqfact sq n = 1 := by
  unfold sqfact
  have : ∀ i, sprod sq (n i) = 1 := fun i => by rw [h i]; simp [sprod]
  simp [this]

theorem sqfact_dec {M : ℕ} (sq : ℕ → ℂ) {n : Fin M → ℕ} {k : Fin M}
    (hk : 0 < n k) : sqfact sq n = sq (n k) * sqfact sq (dec n k) := by
  unfold sqfact
  have hupd : (fun i => sprod sq (dec n k i))
      = Function.update (fun i => sprod sq (n i)) k (sprod sq (n k - 1)) := by
    funext i
    by_cases hik : i = k
    · subst hik; rw [dec_apply_self, Function.update_same]
    · rw [dec_apply_ne n hik, Function.update_noteq hik]
  rw [hupd, Finset.prod_update_of_mem (Finset.mem_univ k),
    Finset.sdiff_singleton_eq_erase,
    ← Finset.mul_prod_erase Finset.univ (fun i => sprod sq (n i)) (Finset.mem_univ k)]
  have hsucc : sprod sq (n k) = sprod sq (n k - 1) * sq (n k) := by
    have h1 : n k = (n k - 1) + 1 := by omega
    conv_lhs => rw [h1]
    unfold sprod
    rw [Finset.prod_range_succ, ← h1]
  rw [hsucc]
  ring

theorem sqfact_mul_Grec {M : ℕ} {sq : ℕ → ℂ} (hsq : ∀ t, sq t * sq t = (t : ℂ))
    (A : Fin M → Fin M → ℂ) (B : Fin M → ℂ) (C : ℂ) (n : Fin M → ℕ) :
    sqfact sq n * Grec sq A B C n = Hrec A B C n := by
  have main : ∀ N (n : Fin M → ℕ), wt n ≤ N →
      sqfact sq n * Grec sq A B C n = Hrec A B C n := by
    intro N
    induction N with
    | zero =>
      intro n hw
      have hz : ∀ i, n i = 0 := by
        intro i
        have : n i ≤ wt n :=
          Finset.single_le_sum (fun i _ => Nat.zero_le _) (Finset.mem_univ i)
        omega
      have hne : ¬ (posIdx n).Nonempty := posIdx_empty_iff.mpr hz
      rw [Grec_of_zero sq A B C hne, Hrec_of_zero A B C hne, sqfact_of_zero sq hz,
        one_mul]
    | succ N IH =>
      intro n hw
      by_cases hne : (posIdx n).Nonempty
      · have hk0 : 0 < n ((posIdx n).min' hne) := min'_posIdx_pos hne
        have hwtm : wt (dec n ((posIdx n).min' hne)) < wt n := wt_dec_lt hk0
        have hnz : sq (n ((posIdx n).min' hne)) ≠ 0 := sq_pos_ne_zero hsq hk0
        have cancel : ∀ (a b x : ℂ), a ≠ 0 → a * b * (x / a) = b * x := by
          intro a b x ha
          field_simp
          ring
        rw [Grec_of_ne sq A B C hne, Hrec_of_ne A B C hne, sqfact_dec sq hk0,
          cancel _ _ _ hnz, mul_add, Finset.mul_sum]
        unfold expandAt
        have hm := IH (dec n ((posIdx n).min' hne)) (by omega)
        congr 1
        · rw [← hm]
          ring
        · refine Finset.sum_congr rfl fun j _ => ?_
          by_cases hmj : 0 < dec n ((posIdx n).min' hne) j
          · rw [if_pos hmj]
            have hfd := sqfact_dec sq hmj
            have hwt2 : wt (dec (dec n ((posIdx n).min' hne)) j) ≤ N := by
              have := wt_dec_le (dec n ((posIdx n).min' hne)) j
              omega
            have hrec := IH (dec (dec n ((posIdx n).min' hne)) j) hwt2
            rw [hfd, ← hrec]
            linear_combination (A ((posIdx n).min' hne) j *
              sqfact sq (dec (dec n ((posIdx n).min' hne)) j) *
              Grec sq A B C (dec (dec n ((posIdx n).min' hne)) j)) *
                hsq (dec n ((posIdx n).min' hne) j)
          · rw [if_neg hmj, mul_zero]
            have hz : dec n ((posIdx n).min' hne) j = 0 := by omega
            rw [hz]
            simp
      · have hz : ∀ i, n i = 0 := posIdx_empty_iff.mp hne
        rw [Grec_of_zero sq A B C hne, Hrec_of_zero A B C hne, sqfact_of_zero sq hz,
          one_mul]
  exact main (wt n) n le_rfl

theorem sqfact_ne_zero {M : ℕ} {sq : ℕ → ℂ} (hsq : ∀ t, sq t * sq t = (t : ℂ))
    (n : Fin M → ℕ) : sqfact sq n ≠ 0 := by
  unfold sqfact
  rw [Finset.prod_ne_zero_iff]
  intro i _
  unfold sprod
  rw [Finset.prod_ne_zero_iff]
  intro s _
  exact sq_pos_ne_zero hsq (Nat.succ_pos s)

theorem Grec_eq_Hrec_div {M : ℕ} {sq : ℕ → ℂ} (hsq : ∀ t, sq t * sq t = (t : ℂ))
    (A : Fin M → Fin M → ℂ) (B : Fin M → ℂ) (C : ℂ) (n : Fin M → ℕ) :
    Grec sq A B C n = Hrec A B C n / sqfact sq n := by
  rw [← sqfact_mul_Grec hsq A B C n, mul_comm, mul_div_assoc,
    div_self (sqfact_ne_zero hsq n), mul_one]

theorem dec_comp {M : ℕ} (m : Fin M → ℕ) (p : Equiv.Perm (Fin M)) (j : Fin M) :
    dec (fun i => m (p i)) j = fun i => dec m (p j) (p i) := by
  funext i
  rw [dec_apply]
  by_cases hij : i = j
  · subst hij
    rw [dec_apply_self]
    simp
  · have hpij : p i ≠ p j := fun h => hij (p.injective h)
    rw [dec_apply_ne m hpij]
    simp [hij]

theorem sqfact_perm {M : ℕ} (sq : ℕ → ℂ) (p : Equiv.Perm (Fin M)) (n : Fin M → ℕ) :
    sqfact sq (fun i => n (p i)) = sqfact sq n := by
  unfold sqfact
  exact Equiv.prod_comp p (fun t => sprod sq (n t))

theorem Hrec_perm {M : ℕ} {A : Fin M → Fin M → ℂ} {B : Fin M → ℂ} {C : ℂ}
    (hA : ∀ i j, A i j = A j i) (p : Equiv.Perm (Fin M)) (n : Fin M → ℕ) :
    Hrec (fun i j => A (p i) (p j)) (fun i => B (p i)) C (fun i => n (p i)) =
      Hrec A B C n := by
  have hA' : ∀ i j, A (p i) (p j) = A (p j) (p i) := fun i j => hA _ _
  have main : ∀ N (n : Fin M → ℕ), wt n ≤ N →
      Hrec (fun i j => A (p i) (p j)) (fun i => B (p i)) C (fun i => n (p i)) =
        Hrec A B C n := by
    intro N
    induction N with
    | zero =>
      intro n hw
      have hz : ∀ i, n i = 0 := by
        intro i
        have : n i ≤ wt n :=
          Finset.single_le_sum (fun i _ => Nat.zero_le _) (Finset.mem_univ i)
        omega
      rw [Hrec_of_zero _ _ _ (posIdx_empty_iff.mpr (fun i => hz (p i))),
        Hrec_of_zero _ _ _ (posIdx_empty_iff.mpr hz)]
    | succ N IH =>
      intro n hw
      by_cases hne : (posIdx n).Nonempty
      · have hk0 : 0 < n ((posIdx n).min' hne) := min'_posIdx_pos hne
        have hknp : 0 < (fun i => n (p i)) (p.symm ((posIdx n).min' hne)) := by
          simp only [Equiv.apply_symm_apply]
          exact hk0
        rw [Hrec_exchange hA' (fun i => n (p i)) (p.symm ((posIdx n).min' hne)) hknp,
          Hrec_of_ne A B C hne]
        unfold expandAt
        have e1 : dec (fun i => n (p i)) (p.symm ((posIdx n).min' hne)) =
            fun i => dec n ((posIdx n).min' hne) (p i) := by
          rw [dec_comp n p (p.symm ((posIdx n).min' hne))]
          simp only [Equiv.apply_symm_apply]
        rw [e1]
        have e2 : ∀ j, Hrec (fun i j => A (p i) (p j)) (fun i => B (p i)) C
              (dec (fun i => dec n ((posIdx n).min' hne) (p i)) j)
            = Hrec A B C (dec (dec n ((posIdx n).min' hne)) (p j)) := by
          intro j
          rw [dec_comp (dec n ((posIdx n).min' hne)) p j]
          refine IH (dec (dec n ((posIdx n).min' hne)) (p j)) ?_
          have h1 := wt_dec_le (dec n ((posIdx n).min' hne)) (p j)
          have h2 := wt_dec_lt hk0
          omega
        congr 1
        · simp only [Equiv.apply_symm_apply]
          congr 1
          exact IH (dec n ((posIdx n).min' hne)) (by have := wt_dec_lt hk0; omega)
        · refine Eq.trans (Finset.sum_congr rfl fun j _ => ?_)
            (Equiv.sum_comp p (fun t => ((dec n ((posIdx n).min' hne) t : ℕ) : ℂ) *
              A ((posIdx n).min' hne) t *
              Hrec A B C (dec (dec n ((posIdx n).min' hne)) t)))
          rw [e2 j]
          simp only [Equiv.apply_symm_apply]
      · have hz : ∀ i, n i = 0 := posIdx_empty_iff.mp hne
        rw [Hrec_of_zero _ _ _ (posIdx_empty_iff.mpr (fun i => hz (p i))),
          Hrec_of_zero _ _ _ (posIdx_empty_iff.mpr hz)]
  exact main (wt n) n le_rfl

theorem hermite_renormalized_perm {M : ℕ} {A : Fin M → Fin M → ℂ} {B : Fin M → ℂ}
    {C : ℂ} (hA : ∀ i j, A i j = A j i) (p : Equiv.Perm (Fin M)) (n : Fin M → ℕ) :
    hermite_renormalized (fun i j => A (p i) (p j)) (fun i => B (p i)) C
      (fun i => n (p i)) = hermite_renormalized A B C n := by
  unfold hermite_renormalized
  rw [Grec_eq_Hrec_div nsqrt_mul_self, Grec_eq_Hrec_div nsqrt_mul_self,
    Hrec_perm hA p n, sqfact_perm]

theorem Grec_vacuum {M : ℕ} (sq : ℕ → ℂ) (C : ℂ) {n : Fin M → ℕ}
    (hn : (posIdx n).Nonempty) :
    Grec sq (fun _ _ => 0) (fun _ => 0) C n = 0 := by
  rw [Grec_of_ne sq _ _ C hn]
  simp

theorem Grec_C_linear {M : ℕ} (sq : ℕ → ℂ) (A : Fin M → Fin M → ℂ)
    (B : Fin M → ℂ) (C : ℂ) (n : Fin M → ℕ) :
    Grec sq A B C n = C * Grec sq A B 1 n := by
  have main : ∀ N (n : Fin M → ℕ), wt n ≤ N →
      Grec sq A B C n = C * Grec sq A B 1 n := by
    intro N
    induction N with
    | zero =>
      intro n hw
      have hz : ∀ i, n i = 0 := by
        intro i
        have : n i ≤ wt n :=
          Finset.single_le_sum (fun i _ => Nat.zero_le _) (Finset.mem_univ i)
        omega
      have hne : ¬ (posIdx n).Nonempty := posIdx_empty_iff.mpr hz
      rw [Grec_of_zero sq A B C hne, Grec_of_zero sq A B 1 hne, mul_one]
    | succ N IH =>
      intro n hw
      by_cases hne : (posIdx n).Nonempty
      · rw [Grec_of_ne sq A B C hne, Grec_of_ne sq A B 1 hne]
        rw [IH (dec n ((posIdx n).min' hne))
          (by have := wt_dec_lt (min'_posIdx_pos hne); omega)]
        have h2 : (∑ j, (if 0 < dec n ((posIdx n).min' hne) j then
              A ((posIdx n).min' hne) j * sq (dec n ((posIdx n).min' hne) j) *
                Grec sq A B C (dec (dec n ((posIdx n).min' hne)) j)
            else 0))
            = C * ∑ j, (if 0 < dec n ((posIdx n).min' hne) j then
              A ((posIdx n).min' hne) j * sq (dec n ((posIdx n).min' hne) j) *
                Grec sq A B 1 (dec (dec n ((posIdx n).min' hne)) j)
            else 0) := by
          rw [Finset.mul_sum]
          refine Finset.sum_congr rfl fun j _ => ?_
          by_cases hc : 0 < dec n ((posIdx n).min' hne) j
          · rw [if_pos hc, if_pos hc, IH (dec (dec n ((posIdx n).min' hne)) j)
              (by have h1 := wt_dec_le (dec n ((posIdx n).min' hne)) j
                  have := wt_dec_lt (min'_posIdx_pos hne); omega)]
            ring
          · rw [if_neg hc, if_neg hc, mul_zero]
        rw [h2]
        ring
      · rw [Grec_of_zero sq A B C hne, Grec_of_zero sq A B 1 hne, mul_one]
  exact main (wt n) n le_rfl

/-! ## Reverse-mode gradient of `_recursive_state` with respect to `C`

From `TFCircuitBackend._recursive_state`: the backward closure computes
`dC = state / C` (elementwise over the filled tensor) and returns
`dLdC = Σ dy·conj(dC)` summed over all tensor entries. -/

/-- Entrywise `dC = state / C` of the grad closure, at multi-index `n`. -/
noncomputable def recursive_state_dC {M : ℕ} (A : Fin M → Fin M → ℂ)
    (B : Fin M → ℂ) (C : ℂ) (n : Fin M → ℕ) : ℂ :=
  hermite_renormalized A B C n / C

/-- The gradient returned for `C`: `np.sum(dy * np.conj(dC))` over the whole
tensor (axis `i` of the tensor has indices `0..cutoffs i`). -/
noncomputable def recursive_state_dLdC {M : ℕ} (A : Fin M → Fin M → ℂ)
    (B : Fin M → ℂ) (C : ℂ) (cutoffs : Fin M → ℕ) (dy : (Fin M → ℕ) → ℂ) : ℂ :=
  ∑ x : (∀ i, Fin (cutoffs i + 1)),
    dy (fun i => (x i : ℕ)) *
      (starRingEnd ℂ) (recursive_state_dC A B C (fun i => (x i : ℕ)))

/-! ## The Gaussian-to-(A, B, C) converter

From `TFCircuitBackend._Qmat` and `TFCircuitBackend._ABC`.  Indices of
`2N×2N` quadrature matrices are `Fin N ⊕ Fin N` (`inl` = x-block rows
`[:N]`, `inr` = p-block rows `[N:]`). -/

/-- Modelled from the spec: `utils.rotmat` (not part of the provided
sources) — the fixed unitary mapping the quadrature ordering to the
creation/annihilation ordering, `R = (1/√2)·[[I, iI], [I, −iI]]`. -/
noncomputable def Rmat (N : ℕ) : Matrix (Fin N ⊕ Fin N) (Fin N ⊕ Fin N) ℂ :=
  (((Real.sqrt 2 : ℝ) : ℂ))⁻¹ •
    Matrix.fromBlocks 1 (Complex.I • 1) 1 (-(Complex.I • 1))

/-- Modelled from the spec: `utils.Xmat` (not part of the provided sources)
— the mode-swap matrix `[[0, I], [I, 0]]`. -/
def Xswap (N : ℕ) : Matrix (Fin N ⊕ Fin N) (Fin N ⊕ Fin N) ℂ :=
  Matrix.fromBlocks 0 1 1 0

/-- Source `TFCircuitBackend._Qmat`: the Husimi `Q` matrix of a Gaussian state. -/
noncomputable def Qmat (N : ℕ) (cov : Matrix (Fin N ⊕ Fin N) (Fin N ⊕ Fin N) ℝ)
    (hbar : ℝ) : Matrix (Fin N ⊕ Fin N) (Fin N ⊕ Fin N) ℂ :=
  Matrix.fromBlocks (Qaidaj N cov hbar) ((Qaiaj N cov hbar).map (starRingEnd ℂ))
    (Qaiaj N cov hbar) ((Qaidaj N cov hbar).map (starRingEnd ℂ)) + 1
where
  /-- block `x`, that is `cov[:N,:N]·2/ħ` cast to ℂ -/
  Qx (N : ℕ) (cov : Matrix (Fin N ⊕ Fin N) (Fin N ⊕ Fin N) ℝ) (hbar : ℝ) :
      Matrix (Fin N) (Fin N) ℂ :=
    Matrix.of fun i j => ((cov (Sum.inl i) (Sum.inl j) * 2 / hbar : ℝ) : ℂ)
  /-- block `xp`, that is `cov[:N,N:]·2/ħ` cast to ℂ -/
  Qxp (N : ℕ) (cov : Matrix (Fin N ⊕ Fin N) (Fin N ⊕ Fin N) ℝ) (hbar : ℝ) :
      Matrix (Fin N) (Fin N) ℂ :=
    Matrix.of fun i j => ((cov (Sum.inl i) (Sum.inr j) * 2 / hbar : ℝ) : ℂ)
  /-- block `p`, that is `cov[N:,N:]·2/ħ` cast to ℂ -/
  Qp (N : ℕ) (cov : Matrix (Fin N ⊕ Fin N) (Fin N ⊕ Fin N) ℝ) (hbar : ℝ) :
      Matrix (Fin N) (Fin N) ℂ :=
    Matrix.of fun i j => ((cov (Sum.inr i) (Sum.inr j) * 2 / hbar : ℝ) : ℂ)
  /-- block `(x + p + i(xp − xpᵀ) − 2I)/4` -/
  Qaidaj (N : ℕ) (cov : Matrix (Fin N ⊕ Fin N) (Fin N ⊕ Fin N) ℝ) (hbar : ℝ) :
      Matrix (Fin N) (Fin N) ℂ :=
    (4 : ℂ)⁻¹ • (Qx N cov hbar + Qp N cov hbar +
      Complex.I • (Qxp N cov hbar - (Qxp N cov hbar)ᵀ) - (2 : ℂ) • 1)
  /-- block `(x − p + i(xp + xpᵀ))/4` -/
  Qaiaj (N : ℕ) (cov : Matrix (Fin N ⊕ Fin N) (Fin N ⊕ Fin N) ℝ) (hbar : ℝ) :
      Matrix (Fin N) (Fin N) ℂ :=
    (4 : ℂ)⁻¹ • (Qx N cov hbar - Qp N cov hbar +
      Complex.I • (Qxp N cov hbar + (Qxp N cov hbar)ᵀ))

/-- The matrix `sigma = (1/ħ)·R·cov·Rᴴ` from `TFCircuitBackend._ABC`. -/
noncomputable def ABCsigma (N : ℕ)
    (cov : Matrix (Fin N ⊕ Fin N) (Fin N ⊕ Fin N) ℝ) (hbar : ℝ) :
    Matrix (Fin N ⊕ Fin N) (Fin N ⊕ Fin N) ℂ :=
  ((hbar : ℝ) : ℂ)⁻¹ • (Rmat N * cov.map Complex.ofReal * (Rmat N)ᴴ)

/-- The matrix `A = Xmat·(I − (sigma + ½I)⁻¹)` from `TFCircuitBackend._ABC` (full size). -/
noncomputable def ABC_Afull (N : ℕ)
    (cov : Matrix (Fin N ⊕ Fin N) (Fin N ⊕ Fin N) ℝ) (hbar : ℝ) :
    Matrix (Fin N ⊕ Fin N) (Fin N ⊕ Fin N) ℂ :=
  Xswap N * (1 - (ABCsigma N cov hbar + (2 : ℂ)⁻¹ • 1)⁻¹)

/-- The vector `alpha = (means[:N] + i·means[N:])/√(2ħ)` from `TFCircuitBackend._ABC`. -/
noncomputable def ABCalpha (N : ℕ) (means : Fin N ⊕ Fin N → ℝ) (hbar : ℝ) :
    Fin N → ℂ :=
  fun i => ((means (Sum.inl i) : ℝ) + Complex.I * ((means (Sum.inr i) : ℝ) : ℂ)) /
    ((Real.sqrt (2 * hbar) : ℝ) : ℂ)

/-- The vector `B = concat(alpha, conj(alpha))` from `TFCircuitBackend._ABC` (full size). -/
noncomputable def ABC_Bfull (N : ℕ) (means : Fin N ⊕ Fin N → ℝ) (hbar : ℝ) :
    Fin N ⊕ Fin N → ℂ :=
  Sum.elim (ABCalpha N means hbar)
    (fun i => (starRingEnd ℂ) (ABCalpha N means hbar i))

/-- The scalar `C = exp(−½·B·Q⁻¹·conj(B))/√det(Q)` from `TFCircuitBackend._ABC`. -/
noncomputable def ABC_Cfull (N : ℕ)
    (cov : Matrix (Fin N ⊕ Fin N) (Fin N ⊕ Fin N) ℝ) (means : Fin N ⊕ Fin N → ℝ)
    (hbar : ℝ) : ℂ :=
  Complex.exp (-(2 : ℂ)⁻¹ * ∑ i, ∑ j, ABC_Bfull N means hbar i *
      (Qmat N cov hbar)⁻¹ i j * (starRingEnd ℂ) (ABC_Bfull N means hbar j)) /
    ((Qmat N cov hbar).det) ^ ((2 : ℂ)⁻¹)

/-- Source `TFCircuitBackend._ABC` with `mixed = False` (ket / pure-state mode):
returns `(A[:N,:N], B[:N], C**0.5)`. -/
noncomputable def ABC_ket (N : ℕ)
    (cov : Matrix (Fin N ⊕ Fin N) (Fin N ⊕ Fin N) ℝ) (means : Fin N ⊕ Fin N → ℝ)
    (hbar : ℝ) : Matrix (Fin N) (Fin N) ℂ × (Fin N → ℂ) × ℂ :=
  ((ABC_Afull N cov hbar).toBlocks₁₁,
   fun i => ABC_Bfull N means hbar (Sum.inl i),
   (ABC_Cfull N cov means hbar) ^ ((2 : ℂ)⁻¹))

/-- The vacuum covariance matrix `(ħ/2)·I`. -/
noncomputable def vacuumCov (N : ℕ) (hbar : ℝ) :
    Matrix (Fin N ⊕ Fin N) (Fin N ⊕ Fin N) ℝ :=
  (hbar / 2) • 1

/-! ## Fock-space algebra: `purity`, `ket_to_dm`, `dm_to_ket`

From `mrmustard/physics/fock.py`.  A density-matrix tensor with axes
`(out, in)` flattened to a `d×d` matrix is represented directly as a square
matrix over an arbitrary finite index type (the flattening `reshape` is a
bijection on indices and does not change any of the sums involved). -/

/-- The trace `math.trace(dm)` of the flattened density matrix. -/
noncomputable def traceC {ι : Type} [Fintype ι] (ρ : Matrix ι ι ℂ) : ℂ :=
  ∑ x, ρ x x

/-- Source `purity(dm)`: normalize by the trace, then
`abs(sum(transpose(dm) * dm))` (elementwise product, i.e. `tr(ρ̂²)`). -/
noncomputable def purity {ι : Type} [Fintype ι] (ρ : Matrix ι ι ℂ) : ℝ :=
  Complex.abs (∑ x, ∑ y, (ρ y x / traceC ρ) * (ρ x y / traceC ρ))

/-- Source `ket_to_dm(ket) = outer(ket, conj(ket))`. -/
noncomputable def ket_to_dm {ι : Type} (k : ι → ℂ) : Matrix ι ι ℂ :=
  Matrix.of fun x y => k x * (starRingEnd ℂ) (k y)

/-- Numpy `np.isclose(a, b, rtol, atol)`: `|a − b| ≤ atol + rtol·|b|`. -/
def np_isclose (a b rtol atol : ℝ) : Prop := |a - b| ≤ atol + rtol * |b|

open scoped Classical

/-- Python exceptions raised by the embedded functions. -/
inductive PyError
  | notImplementedError
  | valueError
deriving DecidableEq

/-- Source `dm_to_ket(dm)`: raise `ValueError` unless
`np.isclose(purity(dm), 1.0, atol=1e-6)` (with numpy's default
`rtol = 1e-5`); otherwise return the last `eigh` eigenvector (ascending
eigenvalue order, so the one of the largest eigenvalue) scaled by the square
root of the last eigenvalue.  The eigendecomposition `math.eigh` is the
external numeric backend and enters as the parameter `eig`
(`eig ρ = (eigenvalues, eigenvector-columns)`). -/
noncomputable def dm_to_ket {d : ℕ}
    (eig : Matrix (Fin (d + 1)) (Fin (d + 1)) ℂ →
      ((Fin (d + 1) → ℝ) × Matrix (Fin (d + 1)) (Fin (d + 1)) ℂ))
    (ρ : Matrix (Fin (d + 1)) (Fin (d + 1)) ℂ) :
    Except PyError (Fin (d + 1) → ℂ) :=
  if np_isclose (purity ρ) 1 (1 / 100000) (1 / 1000000) then
    .ok (fun x => (eig ρ).2 x (Fin.last d) *
      ((Real.sqrt ((eig ρ).1 (Fin.last d)) : ℝ) : ℂ))
  else .error .valueError

/-! ## Stubs and not-implemented operations of the computational interface -/

/-- Container `SymplecticData` (matrix, vector, coefficients). -/
structure SymplecticData (mT vT cT : Type) where
  mat : mT
  vec : vT
  coeffs : cT

/-- Source `SymplecticData.__truediv__`: `raise NotImplementedError()` for every
argument. -/
def SymplecticData.truediv {mT vT cT oT : Type} (_self : SymplecticData mT vT cT)
    (_other : oT) : Except PyError (SymplecticData mT vT cT) :=
  .error .notImplementedError

/-- Source `NPMath.hermite_renormalized_diagonal`: its body is commented out and ends
in `pass`, so the call RETURNS `None` silently (`.ok none`), raising nothing. -/
def hermite_renormalized_diagonal (_A : List (List ℂ)) (_B : List ℂ) (_C : ℂ)
    (_cutoffs : List ℕ) : Except PyError (Option (List (List ℂ))) :=
  .ok none

/-! ## The checked engine entry (failure semantics of the spec)

Modelled from the spec: the validation layer of `fill_fock_amplitudes`
(the engine implementation is not part of the provided sources): negative
cutoffs are an invalid-argument error, a non-square `A` or a `B` of
mismatched length is a shape-mismatch error, and on success the full dense
tensor is returned. -/

/-- Errors signalled by the engine before any amplitude is filled. -/
inductive EngineError
  | invalidArgument
  | shapeMismatch
deriving DecidableEq

/-- Modelled from the spec: the validated engine entry (the engine and its
validation are not part of the provided sources); raw list inputs, `Except`
result. -/
noncomputable def fill_fock_amplitudes_checked (A : List (List ℂ)) (B : List ℂ)
    (C : ℂ) (cutoffs : List ℤ) :
    Except EngineError ((Fin B.length → ℕ) → ℂ) :=
  if cutoffs.any (fun c => c < 0) then .error .invalidArgument
  else if A.length ≠ B.length ∨ (∃ r ∈ A, r.length ≠ B.length) ∨
      cutoffs.length ≠ B.length then .error .shapeMismatch
  else .ok (fill_fock_amplitudes
      (fun i j => (A.getD i.1 []).getD j.1 0)
      (fun i => B.getD i.1 0) C
      (fun i => (cutoffs.getD i.1 0).toNat))

/-! ## C4: the converter on the vacuum state -/

theorem Rmat_mul_conjTranspose (N : ℕ) : Rmat N * (Rmat N)ᴴ = 1 := by
  have hstar : star ((((Real.sqrt 2 : ℝ) : ℂ))⁻¹) = (((Real.sqrt 2 : ℝ) : ℂ))⁻¹ := by
    simp [Complex.star_def, map_inv₀, Complex.conj_ofReal]
  have hI : star Complex.I = -Complex.I := by
    simp [Complex.star_def, Complex.conj_I]
  unfold Rmat
  rw [Matrix.conjTranspose_smul, hstar, Matrix.smul_mul, Matrix.mul_smul, smul_smul]
  simp only [Matrix.fromBlocks_conjTranspose, Matrix.conjTranspose_smul,
    Matrix.conjTranspose_one, Matrix.conjTranspose_neg, hI, neg_smul, neg_neg]
  rw [Matrix.fromBlocks_multiply]
  simp only [Matrix.one_mul, Matrix.mul_one, Matrix.smul_mul, Matrix.mul_smul,
    smul_smul, Matrix.mul_neg, Matrix.neg_mul, neg_smul, neg_neg, smul_neg,
    Complex.I_mul_I, one_smul]
  have h2 : ((Real.sqrt 2 : ℝ) : ℂ)⁻¹ * ((Real.sqrt 2 : ℝ) : ℂ)⁻¹ = (2 : ℂ)⁻¹ := by
    rw [← mul_inv, ← Complex.ofReal_mul, Real.mul_self_sqrt (by norm_num : (0:ℝ) ≤ 2)]
    norm_num
  have h11 : (2 : ℂ)⁻¹ • ((1 : Matrix (Fin N) (Fin N) ℂ) + 1) = 1 := by
    rw [smul_add, ← add_smul]
    norm_num
  rw [h2, Matrix.fromBlocks_smul, h11]
  rw [show ((1 : Matrix (Fin N) (Fin N) ℂ) + -1) = 0 from by rw [add_neg_cancel]]
  rw [smul_zero, Matrix.fromBlocks_one]

theorem vacuumCov_map (N : ℕ) (hbar : ℝ) :
    (vacuumCov N hbar).map Complex.ofReal = ((hbar / 2 : ℝ) : ℂ) • 1 := by
  ext i j
  simp only [vacuumCov, Matrix.map_apply, Matrix.smul_apply, Matrix.one_apply]
  split_ifs <;> simp

theorem ABCsigma_vacuum (N : ℕ) {hbar : ℝ} (h : 0 < hbar) :
    ABCsigma N (vacuumCov N hbar) hbar = (2 : ℂ)⁻¹ • 1 := by
  unfold ABCsigma
  rw [vacuumCov_map, Matrix.mul_smul, Matrix.smul_mul, Matrix.mul_one,
    Rmat_mul_conjTranspose, smul_smul]
  congr 1
  have hne : (hbar : ℂ) ≠ 0 := by
    simp only [ne_eq, Complex.ofReal_eq_zero]
    exact ne_of_gt h
  rw [Complex.ofReal_div]
  field_simp

theorem Qx_vacuum (N : ℕ) {hbar : ℝ} (h : 0 < hbar) :
    Qmat.Qx N (vacuumCov N hbar) hbar = 1 := by
  ext i j
  simp only [Qmat.Qx, vacuumCov, Matrix.of_apply, Matrix.smul_apply,
    Matrix.one_apply, Sum.inl.injEq, smul_eq_mul]
  split_ifs with hij
  · rw [mul_one]
    rw [show hbar / 2 * 2 / hbar = 1 from by field_simp]
    simp
  · simp

theorem Qp_vacuum (N : ℕ) {hbar : ℝ} (h : 0 < hbar) :
    Qmat.Qp N (vacuumCov N hbar) hbar = 1 := by
  ext i j
  simp only [Qmat.Qp, vacuumCov, Matrix.of_apply, Matrix.smul_apply,
    Matrix.one_apply, Sum.inr.injEq, smul_eq_mul]
  split_ifs with hij
  · rw [mul_one]
    rw [show hbar / 2 * 2 / hbar = 1 from by field_simp]
    simp
  · simp

theorem Qxp_vacuum (N : ℕ) (hbar : ℝ) :
    Qmat.Qxp N (vacuumCov N hbar) hbar = 0 := by
  ext i j
  simp [Qmat.Qxp, vacuumCov, Matrix.one_apply]

theorem Qmat_vacuum (N : ℕ) {hbar : ℝ} (h : 0 < hbar) :
    Qmat N (vacuumCov N hbar) hbar = 1 := by
  unfold Qmat
  have haidaj : Qmat.Qaidaj N (vacuumCov N hbar) hbar = 0 := by
    unfold Qmat.Qaidaj
    rw [Qx_vacuum N h, Qp_vacuum N h, Qxp_vacuum, Matrix.transpose_zero, sub_zero,
      smul_zero, add_zero, two_smul, sub_self, smul_zero]
  have haiaj : Qmat.Qaiaj N (vacuumCov N hbar) hbar = 0 := by
    unfold Qmat.Qaiaj
    rw [Qx_vacuum N h, Qp_vacuum N h, Qxp_vacuum, Matrix.transpose_zero, add_zero,
      smul_zero, sub_self, zero_add, smul_zero]
  rw [haidaj, haiaj, Matrix.map_zero _ (map_zero _), Matrix.fromBlocks_zero, zero_add]

theorem ABC_Afull_vacuum (N : ℕ) {hbar : ℝ} (h : 0 < hbar) :
    ABC_Afull N (vacuumCov N hbar) hbar = 0 := by
  unfold ABC_Afull
  rw [ABCsigma_vacuum N h]
  rw [show ((2 : ℂ)⁻¹ • (1 : Matrix (Fin N ⊕ Fin N) (Fin N ⊕ Fin N) ℂ) + (2 : ℂ)⁻¹ • 1) = 1 from by
    rw [← add_smul]; norm_num]
  rw [inv_one, sub_self, Matrix.mul_zero]

theorem ABCalpha_vacuum (N : ℕ) (hbar : ℝ) :
    ABCalpha N (fun _ => 0) hbar = fun _ => 0 := by
  funext i
  simp [ABCalpha]

theorem ABC_Bfull_vacuum (N : ℕ) (hbar : ℝ) :
    ABC_Bfull N (fun _ => 0) hbar = fun _ => 0 := by
  funext i
  rcases i with i | i <;> simp [ABC_Bfull, ABCalpha_vacuum]

theorem ABC_Cfull_vacuum (N : ℕ) {hbar : ℝ} (h : 0 < hbar) :
    ABC_Cfull N (vacuumCov N hbar) (fun _ => 0) hbar = 1 := by
  unfold ABC_Cfull
  rw [ABC_Bfull_vacuum, Qmat_vacuum N h, Matrix.det_one, Complex.one_cpow]
  simp

/-- C4: for the vacuum Gaussian state (`cov = ħ/2·I`, `means = 0`) the
Gaussian-to-triple converter in ket (pure) mode returns `A = 0` (exactly,
hence within any tolerance), `B = 0` and `C = 1`. -/
theorem C4_converter_vacuum (N : ℕ) {hbar : ℝ} (h : 0 < hbar) :
    ABC_ket N (vacuumCov N hbar) (fun _ => 0) hbar = (0, fun _ => 0, 1) := by
  unfold ABC_ket
  rw [ABC_Afull_vacuum N h, ABC_Cfull_vacuum N h, Complex.one_cpow, ABC_Bfull_vacuum]
  refine Prod.ext ?_ (Prod.ext ?_ rfl)
  · ext i j
    simp [Matrix.toBlocks₁₁]
  · rfl

/-- C4 witness: the converter theorem applied to one mode at `ħ = 2`. -/
theorem C4_converter_vacuum_witness :
    (0 : ℝ) < 2 ∧ ABC_ket 1 (vacuumCov 1 2) (fun _ => 0) 2 = (0, fun _ => 0, 1) :=
  ⟨by norm_num, C4_converter_vacuum 1 (by norm_num)⟩

/-! ## C8: purity bounds -/

open scoped ComplexOrder

section Purity

variable {ι : Type} [Fintype ι]

theorem qform_eq (ρ : Matrix ι ι ℂ) (v : ι → ℂ) :
    Matrix.dotProduct (star v) (ρ.mulVec v) =
      ∑ x, ∑ y, (starRingEnd ℂ) (v x) * ρ x y * v y := by
  simp only [Matrix.dotProduct, Matrix.mulVec, Pi.star_apply, Finset.mul_sum]
  refine Finset.sum_congr rfl fun x _ => Finset.sum_congr rfl fun y _ => ?_
  simp only [Complex.star_def]
  ring

theorem sum_single_ite {β : Type} [AddCommMonoid β] [DecidableEq ι] (x : ι)
    (g : ι → β) : (∑ i, if i = x then g i else 0) = g x := by
  rw [Finset.sum_ite_eq' Finset.univ x g]
  simp

theorem sum_pair_ite {β : Type} [AddCommMonoid β] [DecidableEq ι] {x y : ι}
    (hxy : x ≠ y) (g h : ι → β) :
    (∑ i, if i = x then g i else if i = y then h i else 0) = g x + h y := by
  have hz : ∀ i ∈ Finset.univ, i ∉ ({x, y} : Finset ι) →
      (if i = x then g i else if i = y then h i else 0) = 0 := by
    intro i _ hi
    simp only [Finset.mem_insert, Finset.mem_singleton] at hi
    push_neg at hi
    simp [hi.1, hi.2]
  rw [← Finset.sum_subset (Finset.subset_univ {x, y}) hz, Finset.sum_pair hxy]
  simp [hxy, Ne.symm hxy]

theorem qform_single (ρ : Matrix ι ι ℂ) (x : ι) (v : ι → ℂ)
    (hsupp : ∀ i, i ≠ x → v i = 0) [DecidableEq ι] :
    Matrix.dotProduct (star v) (ρ.mulVec v) =
      (starRingEnd ℂ) (v x) * ρ x x * v x := by
  rw [qform_eq]
  have hstep : ∀ i, (∑ j, (starRingEnd ℂ) (v i) * ρ i j * v j) =
      (starRingEnd ℂ) (v i) * ρ i x * v x := by
    intro i
    have hfn : (fun j => (starRingEnd ℂ) (v i) * ρ i j * v j) =
        fun j => if j = x then (starRingEnd ℂ) (v i) * ρ i j * v j else 0 := by
      funext j
      by_cases hjx : j = x
      · simp [hjx]
      · rw [hsupp j hjx]
        simp
    rw [hfn, sum_single_ite]
  rw [show (fun x_1 => ∑ y, (starRingEnd ℂ) (v x_1) * ρ x_1 y * v y) =
      fun i => (starRingEnd ℂ) (v i) * ρ i x * v x from funext hstep]
  have hfn2 : (fun i => (starRingEnd ℂ) (v i) * ρ i x * v x) =
      fun i => if i = x then (starRingEnd ℂ) (v i) * ρ i x * v x else 0 := by
    funext i
    by_cases hix : i = x
    · simp [hix]
    · rw [hsupp i hix]
      simp
  rw [hfn2, sum_single_ite]

theorem qform_pair (ρ : Matrix ι ι ℂ) {x y : ι} (hxy : x ≠ y) (v : ι → ℂ)
    (hsupp : ∀ i, i ≠ x → i ≠ y → v i = 0) [DecidableEq ι] :
    Matrix.dotProduct (star v) (ρ.mulVec v) =
      (starRingEnd ℂ) (v x) * ρ x x * v x + (starRingEnd ℂ) (v x) * ρ x y * v y +
      (starRingEnd ℂ) (v y) * ρ y x * v x + (starRingEnd ℂ) (v y) * ρ y y * v y := by
  rw [qform_eq]
  have hstep : ∀ i, (∑ j, (starRingEnd ℂ) (v i) * ρ i j * v j) =
      (starRingEnd ℂ) (v i) * ρ i x * v x + (starRingEnd ℂ) (v i) * ρ i y * v y := by
    intro i
    have hfn : (fun j => (starRingEnd ℂ) (v i) * ρ i j * v j) =
        fun j => if j = x then (starRingEnd ℂ) (v i) * ρ i j * v j
          else if j = y then (starRingEnd ℂ) (v i) * ρ i j * v j else 0 := by
      funext j
      by_cases hjx : j = x
      · simp [hjx]
      · by_cases hjy : j = y
        · simp [hjx, hjy]
        · rw [hsupp j hjx hjy]
          simp
    rw [hfn, sum_pair_ite hxy]
  rw [show (fun x_1 => ∑ y, (starRingEnd ℂ) (v x_1) * ρ x_1 y * v y) =
      fun i => (starRingEnd ℂ) (v i) * ρ i x * v x + (starRingEnd ℂ) (v i) * ρ i y * v y
      from funext hstep]
  have hfn2 : (fun i => (starRingEnd ℂ) (v i) * ρ i x * v x +
        (starRingEnd ℂ) (v i) * ρ i y * v y) =
      fun i => if i = x then (starRingEnd ℂ) (v i) * ρ i x * v x +
          (starRingEnd ℂ) (v i) * ρ i y * v y
        else if i = y then (starRingEnd ℂ) (v i) * ρ i x * v x +
          (starRingEnd ℂ) (v i) * ρ i y * v y else 0 := by
    funext i
    by_cases hix : i = x
    · simp [hix]
    · by_cases hiy : i = y
      · simp [hix, hiy]
      · rw [hsupp i hix hiy]
        simp
  rw [hfn2, sum_pair_ite hxy]
  ring

theorem psd_pair_nonneg {ρ : Matrix ι ι ℂ} (hM : ρ.PosSemidef) {x y : ι}
    (hxy : x ≠ y) (a b : ℂ) [DecidableEq ι] :
    0 ≤ ((starRingEnd ℂ) a * ρ x x * a + (starRingEnd ℂ) a * ρ x y * b +
        (starRingEnd ℂ) b * ρ y x * a + (starRingEnd ℂ) b * ρ y y * b).re := by
  have h := hM.2 ((Pi.single x a + Pi.single y b : ι → ℂ))
  rw [qform_pair ρ hxy _ (fun i h1 h2 => by
    simp [Pi.single_eq_of_ne h1, Pi.single_eq_of_ne h2])] at h
  have e1 : (Pi.single x a + Pi.single y b : ι → ℂ) x = a := by
    simp [Pi.single_eq_of_ne hxy]
  have e2 : (Pi.single x a + Pi.single y b : ι → ℂ) y = b := by
    simp [Pi.single_eq_of_ne (Ne.symm hxy)]
  rw [e1, e2] at h
  exact (Complex.nonneg_iff.mp h).1

theorem psd_diag_nonneg {ρ : Matrix ι ι ℂ} (hM : ρ.PosSemidef) (x : ι)
    [DecidableEq ι] : 0 ≤ (ρ x x).re := by
  have h := hM.2 (Pi.single x 1)
  rw [qform_single ρ x _ (fun i hix => Pi.single_eq_of_ne hix 1)] at h
  have e1 : (Pi.single x (1 : ℂ) : ι → ℂ) x = 1 := Pi.single_eq_same x 1
  rw [e1] at h
  simp only [map_one, one_mul, mul_one] at h
  exact (Complex.nonneg_iff.mp h).1

theorem psd_minor {ρ : Matrix ι ι ℂ} (hM : ρ.PosSemidef) (x y : ι)
    [DecidableEq ι] :
    Complex.normSq (ρ x y) ≤ (ρ x x).re * (ρ y y).re := by
  by_cases hxy : x = y
  · subst hxy
    have he : ((ρ x x).re : ℂ) = ρ x x := hM.1.coe_re_apply_self x
    conv_lhs => rw [← he]
    rw [Complex.normSq_ofReal]
  · have hdx : ((ρ x x).re : ℂ) = ρ x x := hM.1.coe_re_apply_self x
    have hdy : ((ρ y y).re : ℂ) = ρ y y := hM.1.coe_re_apply_self y
    have hherm : ρ y x = (starRingEnd ℂ) (ρ x y) := by
      have h0 := hM.1.apply x y
      rw [← h0, starRingEnd_apply, star_star]
    have hcc : (starRingEnd ℂ) (ρ x y) * ρ x y = (Complex.normSq (ρ x y) : ℂ) := by
      rw [mul_comm]
      exact Complex.mul_conj (ρ x y)
    rcases eq_or_lt_of_le (psd_diag_nonneg hM x) with hr0 | hrpos
    · rw [← hr0, zero_mul]
      by_contra hcon
      push_neg at hcon
      have hcpos : 0 < Complex.normSq (ρ x y) := hcon
      set t := ((ρ y y).re + 1) / (2 * Complex.normSq (ρ x y)) with ht
      have h := psd_pair_nonneg hM hxy (-((t : ℝ) : ℂ) * ρ x y) 1
      rw [hherm, ← hdx, ← hdy, ← hr0] at h
      have hval : ((starRingEnd ℂ) (-((t : ℝ) : ℂ) * ρ x y) * ((0 : ℝ) : ℂ) *
            (-((t : ℝ) : ℂ) * ρ x y) +
          (starRingEnd ℂ) (-((t : ℝ) : ℂ) * ρ x y) * ρ x y * 1 +
          (starRingEnd ℂ) 1 * (starRingEnd ℂ) (ρ x y) * (-((t : ℝ) : ℂ) * ρ x y) +
          (starRingEnd ℂ) 1 * (((ρ y y).re : ℝ) : ℂ) * 1) =
          ((-(2 * t * Complex.normSq (ρ x y)) + (ρ y y).re : ℝ) : ℂ) := by
        simp only [map_mul, map_neg, Complex.conj_ofReal, map_one]
        push_cast
        linear_combination (-(2 : ℂ) * ((t : ℝ) : ℂ)) * hcc
      rw [hval, Complex.ofReal_re] at h
      have h2t : 2 * t * Complex.normSq (ρ x y) = (ρ y y).re + 1 := by
        rw [ht]
        field_simp
        ring
      rw [h2t] at h
      linarith
    · have h := psd_pair_nonneg hM hxy (-(ρ x y)) (((ρ x x).re : ℝ) : ℂ)
      have hval : ((starRingEnd ℂ) (-(ρ x y)) * ρ x x * -(ρ x y) +
          (starRingEnd ℂ) (-(ρ x y)) * ρ x y * (((ρ x x).re : ℝ) : ℂ) +
          (starRingEnd ℂ) (((ρ x x).re : ℝ) : ℂ) * ρ y x * -(ρ x y) +
          (starRingEnd ℂ) (((ρ x x).re : ℝ) : ℂ) * ρ y y * (((ρ x x).re : ℝ) : ℂ)) =
          ((-(Complex.normSq (ρ x y) * (ρ x x).re) +
            (ρ x x).re * (ρ x x).re * (ρ y y).re : ℝ) : ℂ) := by
        simp only [map_mul, map_neg, Complex.conj_ofReal, map_one]
        push_cast
        linear_combination (-((starRingEnd ℂ) (ρ x y) * ρ x y)) * hdx +
          (-((((ρ x x).re : ℝ) : ℂ) * ρ x y)) * hherm +
          (-(((ρ x x).re : ℝ) : ℂ)) * hcc +
          (-((((ρ x x).re : ℝ) : ℂ) * (((ρ x x).re : ℝ) : ℂ))) * hdy
      rw [hval, Complex.ofReal_re] at h
      nlinarith [hrpos, h]

theorem traceC_herm {ρ : Matrix ι ι ℂ} (hH : ρ.IsHermitian) :
    traceC ρ = ((∑ x, (ρ x x).re : ℝ) : ℂ) := by
  unfold traceC
  rw [Complex.ofReal_sum]
  exact Finset.sum_congr rfl fun x _ => (hH.coe_re_apply_self x).symm

theorem purity_herm {ρ : Matrix ι ι ℂ} (hH : ρ.IsHermitian) :
    purity ρ = |(∑ x, ∑ y, Complex.normSq (ρ x y)) /
      ((∑ x, (ρ x x).re) * (∑ x, (ρ x x).re))| := by
  unfold purity
  rw [traceC_herm hH]
  rw [show (∑ x, ∑ y, (ρ y x / ((∑ x, (ρ x x).re : ℝ) : ℂ)) *
        (ρ x y / ((∑ x, (ρ x x).re : ℝ) : ℂ))) =
      (((∑ x, ∑ y, Complex.normSq (ρ x y)) /
        ((∑ x, (ρ x x).re) * (∑ x, (ρ x x).re)) : ℝ) : ℂ) from ?_]
  · exact Complex.abs_ofReal _
  · push_cast
    rw [Finset.sum_div]
    refine Finset.sum_congr rfl fun x _ => ?_
    rw [Finset.sum_div]
    refine Finset.sum_congr rfl fun y _ => ?_
    have hyx : ρ y x = (starRingEnd ℂ) (ρ x y) := by
      have h0 := hH.apply x y
      rw [← h0, starRingEnd_apply, star_star]
    rw [hyx, div_mul_div_comm, mul_comm ((starRingEnd ℂ) (ρ x y)) (ρ x y),
      Complex.mul_conj]

/-- C8: for every positive-semidefinite nonzero density matrix, `purity` lies
in the half-open interval (0, 1], and for every normalized ket,
`purity (ket_to_dm ket)` equals 1 exactly. -/
theorem C8_purity {ι : Type} [Fintype ι] [DecidableEq ι] (ρ : Matrix ι ι ℂ)
    (k : ι → ℂ) :
    (ρ.PosSemidef → ρ ≠ 0 → 0 < purity ρ ∧ purity ρ ≤ 1) ∧
    ((∑ x, Complex.abs (k x) ^ 2 = 1) → purity (ket_to_dm k) = 1) := by
  constructor
  · intro hM hne
    obtain ⟨x0, y0, h0⟩ : ∃ x y, ρ x y ≠ 0 := by
      by_contra hcon
      push_neg at hcon
      exact hne (Matrix.ext fun i j => hcon i j)
    have hS0 : 0 < Complex.normSq (ρ x0 y0) := Complex.normSq_pos.mpr h0
    have hSpos : 0 < ∑ x, ∑ y, Complex.normSq (ρ x y) := by
      refine lt_of_lt_of_le hS0 ?_
      refine le_trans (Finset.single_le_sum (f := fun y => Complex.normSq (ρ x0 y))
        (fun i _ => Complex.normSq_nonneg _) (Finset.mem_univ y0)) ?_
      exact Finset.single_le_sum (f := fun x => ∑ y, Complex.normSq (ρ x y))
        (fun i _ => Finset.sum_nonneg fun j _ => Complex.normSq_nonneg _)
        (Finset.mem_univ x0)
    have hd0 : 0 < (ρ x0 x0).re := by
      have hmin := psd_minor hM x0 y0
      have h1 := psd_diag_nonneg hM x0
      have h2 := psd_diag_nonneg hM y0
      nlinarith
    have hTpos : 0 < ∑ x, (ρ x x).re := by
      refine lt_of_lt_of_le hd0 ?_
      exact Finset.single_le_sum (f := fun x => (ρ x x).re)
        (fun i _ => psd_diag_nonneg hM i) (Finset.mem_univ x0)
    have hST : (∑ x, ∑ y, Complex.normSq (ρ x y)) ≤
        (∑ x, (ρ x x).re) * (∑ x, (ρ x x).re) := by
      rw [Finset.sum_mul_sum]
      exact Finset.sum_le_sum fun x _ =>
        Finset.sum_le_sum fun y _ => psd_minor hM x y
    rw [purity_herm hM.1]
    have hq : 0 < (∑ x, ∑ y, Complex.normSq (ρ x y)) /
        ((∑ x, (ρ x x).re) * (∑ x, (ρ x x).re)) :=
      div_pos hSpos (mul_pos hTpos hTpos)
    rw [abs_of_pos hq]
    exact ⟨hq, (div_le_one (mul_pos hTpos hTpos)).mpr hST⟩
  · intro hk
    have hnorm : ∑ x, Complex.normSq (k x) = 1 := by
      rw [← hk]
      exact Finset.sum_congr rfl fun x _ => (Complex.sq_abs (k x)).symm
    have htr : traceC (ket_to_dm k) = 1 := by
      unfold traceC ket_to_dm
      rw [show (∑ x : ι, Matrix.of (fun x y => k x * (starRingEnd ℂ) (k y)) x x) =
          ((∑ x, Complex.normSq (k x) : ℝ) : ℂ) from ?_]
      · rw [hnorm]
        norm_num
      · push_cast
        exact Finset.sum_congr rfl fun x _ => by
          rw [Matrix.of_apply]
          exact Complex.mul_conj (k x)
    unfold purity
    rw [htr]
    simp only [div_one]
    rw [show (∑ x, ∑ y, ket_to_dm k y x * ket_to_dm k x y) = (1 : ℂ) from ?_]
    · exact map_one Complex.abs
    · calc (∑ x, ∑ y, ket_to_dm k y x * ket_to_dm k x y)
          = ∑ x, ∑ y, ((Complex.normSq (k x) : ℂ)) * ((Complex.normSq (k y) : ℂ)) := by
            refine Finset.sum_congr rfl fun x _ => Finset.sum_congr rfl fun y _ => ?_
            unfold ket_to_dm
            rw [Matrix.of_apply, Matrix.of_apply, ← Complex.mul_conj (k x),
              ← Complex.mul_conj (k y)]
            ring
        _ = (∑ x, ((Complex.normSq (k x) : ℂ))) * ∑ y, ((Complex.normSq (k y) : ℂ)) :=
            (Finset.sum_mul_sum Finset.univ Finset.univ _ _).symm
        _ = 1 := by
            rw [← Complex.ofReal_sum, hnorm]
            norm_num

/-- C8 witness: the identity matrix on one index is a valid density matrix and
the constant-one ket on one index is normalized. -/
theorem C8_purity_witness :
    (Matrix.PosSemidef (1 : Matrix (Fin 1) (Fin 1) ℂ)) ∧
    (1 : Matrix (Fin 1) (Fin 1) ℂ) ≠ 0 ∧
    (∑ x : Fin 1, Complex.abs ((fun _ => 1 : Fin 1 → ℂ) x) ^ 2 = 1) ∧
    (0 < purity (1 : Matrix (Fin 1) (Fin 1) ℂ) ∧
      purity (1 : Matrix (Fin 1) (Fin 1) ℂ) ≤ 1) ∧
    purity (ket_to_dm (fun _ => 1 : Fin 1 → ℂ)) = 1 := by
  have hpsd : Matrix.PosSemidef (1 : Matrix (Fin 1) (Fin 1) ℂ) := Matrix.PosSemidef.one
  have hne : (1 : Matrix (Fin 1) (Fin 1) ℂ) ≠ 0 := by
    intro h
    have h2 := congrFun (congrFun h 0) 0
    simp [Matrix.one_apply] at h2
  have hk : (∑ x : Fin 1, Complex.abs ((fun _ => 1 : Fin 1 → ℂ) x) ^ 2 = 1) := by simp
  exact ⟨hpsd, hne, hk, (C8_purity 1 (fun _ => 1)).1 hpsd hne,
    (C8_purity 1 (fun _ => 1)).2 hk⟩

end Purity

/-! ## C10: `dm_to_ket` -/

/-- A diagonal density matrix whose purity differs from 1 by an amount in the
gap between `atol = 1e-6` and numpy's effective `isclose` threshold
`atol + rtol·|1| = 1.1e-5`. -/
noncomputable def rhoGap : Matrix (Fin 2) (Fin 2) ℂ :=
  Matrix.diagonal ![((1 / 400000 : ℝ) : ℂ), ((1 - 1 / 400000 : ℝ) : ℂ)]

theorem traceC_rhoGap : traceC rhoGap = 1 := by
  unfold traceC rhoGap
  rw [Fin.sum_univ_two]
  simp [Matrix.diagonal_apply_eq]

theorem purity_rhoGap :
    purity rhoGap = (1 / 400000 : ℝ) * (1 / 400000) +
      (1 - 1 / 400000) * (1 - 1 / 400000) := by
  unfold purity
  rw [traceC_rhoGap]
  simp only [div_one, Fin.sum_univ_two]
  rw [show (rhoGap 0 0 * rhoGap 0 0 + rhoGap 1 0 * rhoGap 0 1) +
      (rhoGap 0 1 * rhoGap 1 0 + rhoGap 1 1 * rhoGap 1 1) =
      (((1 / 400000 : ℝ) * (1 / 400000) +
        (1 - 1 / 400000) * (1 - 1 / 400000) : ℝ) : ℂ) from ?_]
  · rw [Complex.abs_ofReal]
    rw [abs_of_pos]
    norm_num
  · unfold rhoGap
    rw [Matrix.diagonal_apply_eq, Matrix.diagonal_apply_eq,
      Matrix.diagonal_apply_ne _ (by decide), Matrix.diagonal_apply_ne _ (by decide)]
    simp only [Matrix.cons_val_zero, Matrix.cons_val_one, Matrix.head_cons]
    push_cast
    ring

/-- C10 counterexample: `rhoGap` has `|purity − 1| > 1e-6` (the claim's
threshold, so the claim mandates a `ValueError`), yet `dm_to_ket` returns
without error, because `np.isclose` also adds its default `rtol = 1e-5`. -/
theorem C10_counterexample :
    |purity rhoGap - 1| > 1 / 1000000 ∧
    dm_to_ket (fun _ => (fun _ => 0, 0)) rhoGap ≠ Except.error PyError.valueError := by
  have hp := purity_rhoGap
  have hlt : purity rhoGap - 1 < 0 := by
    rw [hp]
    norm_num
  constructor
  · rw [abs_of_neg hlt, hp]
    norm_num
  · intro h
    unfold dm_to_ket at h
    rw [if_pos] at h
    · exact Except.noConfusion h
    · unfold np_isclose
      rw [abs_of_neg hlt, hp, abs_one]
      norm_num

/-- C10 (amended): `dm_to_ket` raises `ValueError` exactly when
`|purity(dm) − 1| > 1e-6 + 1e-5·|1|` (numpy `isclose` with `atol = 1e-6` and
default `rtol = 1e-5`), and otherwise returns the last `eigh` eigenvector
(the one of the largest eigenvalue) scaled by the square root of the last
eigenvalue. -/
theorem C10_dm_to_ket {d : ℕ}
    (eig : Matrix (Fin (d + 1)) (Fin (d + 1)) ℂ →
      ((Fin (d + 1) → ℝ) × Matrix (Fin (d + 1)) (Fin (d + 1)) ℂ))
    (ρ : Matrix (Fin (d + 1)) (Fin (d + 1)) ℂ) :
    (dm_to_ket eig ρ = .error .valueError ↔
      ¬ np_isclose (purity ρ) 1 (1 / 100000) (1 / 1000000)) ∧
    (∀ kv, dm_to_ket eig ρ = .ok kv →
      kv = fun x => (eig ρ).2 x (Fin.last d) *
        ((Real.sqrt ((eig ρ).1 (Fin.last d)) : ℝ) : ℂ)) := by
  constructor
  · constructor
    · intro h hcl
      unfold dm_to_ket at h
      rw [if_pos hcl] at h
      exact Except.noConfusion h
    · intro h
      unfold dm_to_ket
      rw [if_neg h]
  · intro kv h
    unfold dm_to_ket at h
    by_cases hcl : np_isclose (purity ρ) 1 (1 / 100000) (1 / 1000000)
    · rw [if_pos hcl] at h
      injection h with h2
      exact h2.symm
    · rw [if_neg hcl] at h
      exact Except.noConfusion h

/-- C10 witness: the amended theorem applied to the 1×1 identity matrix. -/
theorem C10_dm_to_ket_witness :
    (dm_to_ket (fun _ => (fun _ => 0, 0)) (1 : Matrix (Fin 1) (Fin 1) ℂ) =
        .error .valueError ↔
      ¬ np_isclose (purity (1 : Matrix (Fin 1) (Fin 1) ℂ)) 1
        (1 / 100000) (1 / 1000000)) ∧
    (∀ kv, dm_to_ket (fun _ => (fun _ => 0, 0)) (1 : Matrix (Fin 1) (Fin 1) ℂ) =
        .ok kv →
      kv = fun x => ((fun _ => ((fun _ => 0, 0) :
          (Fin 1 → ℝ) × Matrix (Fin 1) (Fin 1) ℂ)) (1 : Matrix (Fin 1) (Fin 1) ℂ)).2
            x (Fin.last 0) *
        ((Real.sqrt (((fun _ => ((fun _ => 0, 0) :
          (Fin 1 → ℝ) × Matrix (Fin 1) (Fin 1) ℂ)) (1 : Matrix (Fin 1) (Fin 1) ℂ)).1
            (Fin.last 0)) : ℝ) : ℂ)) :=
  C10_dm_to_ket (fun _ => (fun _ => 0, 0)) (1 : Matrix (Fin 1) (Fin 1) ℂ)

/-! ## Claim theorems -/

/-- C1: for the vacuum generating-function triple (`A = 0`, `B = 0`, `C = 1`)
and any cutoff specification, the tensor returned by the recursive amplitude
engine has the value 1 at the all-zero multi-index and 0 at every other
multi-index. -/
theorem C1_vacuum_tensor {M : ℕ} (cutoffs : Fin M → ℕ) (n : Fin M → ℕ) :
    fill_fock_amplitudes (fun _ _ => 0) (fun _ => 0) 1 cutoffs n =
      if n = fun _ => 0 then 1 else 0 := by
  unfold fill_fock_amplitudes hermite_renormalized
  by_cases hn : n = fun _ => 0
  · subst hn
    rw [if_pos (fun i => Nat.zero_le _), if_pos rfl,
      Grec_of_zero _ _ _ _ (posIdx_empty_iff.mpr fun i => rfl)]
  · rw [if_neg hn]
    by_cases hin : ∀ i, n i ≤ cutoffs i
    · rw [if_pos hin]
      have hne : (posIdx n).Nonempty := by
        by_contra h
        exact hn (funext (posIdx_empty_iff.mp h))
      exact Grec_vacuum nsqrt 1 hne
    · rw [if_neg hin]

/-- C2: when every entry of the cutoff specification is zero, the engine
returns a single-element tensor (the cutoff box contains only the zero
multi-index) whose only entry equals `C`. -/
theorem C2_base_case {M : ℕ} (A : Fin M → Fin M → ℂ) (B : Fin M → ℂ) (C : ℂ)
    (n : Fin M → ℕ) :
    ((∀ i, n i ≤ (fun _ => 0 : Fin M → ℕ) i) ↔ n = fun _ => 0) ∧
    fill_fock_amplitudes A B C (fun _ => 0) n = if n = fun _ => 0 then C else 0 := by
  constructor
  · constructor
    · intro h
      funext i
      have h2 : n i ≤ 0 := h i
      omega
    · intro h i
      rw [h]
  · unfold fill_fock_amplitudes hermite_renormalized
    by_cases hn : n = fun _ => 0
    · subst hn
      rw [if_pos (fun i => le_refl _), if_pos rfl,
        Grec_of_zero _ _ _ _ (posIdx_empty_iff.mpr fun i => rfl)]
    · rw [if_neg hn, if_neg]
      intro h
      exact hn (funext fun i => Nat.le_zero.mp (h i))

/-- C3: in the reverse-mode gradient of `_recursive_state`, every output
amplitude is complex-differentiable in `C` with derivative `G[n]/C`, and the
gradient returned for `C` is `Σ_n dy[n]·conj(G[n]/C)` over the tensor. -/
theorem C3_grad_C {M : ℕ} (A : Fin M → Fin M → ℂ) (B : Fin M → ℂ) (C : ℂ)
    (hC : C ≠ 0) (cutoffs : Fin M → ℕ) (dy : (Fin M → ℕ) → ℂ) :
    (∀ n : Fin M → ℕ, HasDerivAt (fun z : ℂ => hermite_renormalized A B z n)
        (hermite_renormalized A B C n / C) C) ∧
    recursive_state_dLdC A B C cutoffs dy =
      ∑ x : (∀ i, Fin (cutoffs i + 1)),
        dy (fun i => (x i : ℕ)) *
          (starRingEnd ℂ) (hermite_renormalized A B C (fun i => (x i : ℕ)) / C) := by
  constructor
  · intro n
    have hlin : ∀ z : ℂ,
        hermite_renormalized A B z n = z * hermite_renormalized A B 1 n :=
      fun z => Grec_C_linear nsqrt A B z n
    have h1 : hermite_renormalized A B C n / C = hermite_renormalized A B 1 n := by
      rw [hlin C, mul_comm, mul_div_assoc, div_self hC, mul_one]
    rw [h1, funext hlin]
    exact hasDerivAt_mul_const _
  · rfl

/-- C3 witness: the gradient theorem applied at `C = 1` on one mode. -/
theorem C3_grad_C_witness :
    (1 : ℂ) ≠ 0 ∧
    ((∀ n : Fin 1 → ℕ, HasDerivAt
        (fun z : ℂ => hermite_renormalized (fun _ _ => 0) (fun _ => 0) z n)
        (hermite_renormalized (fun _ _ => 0) (fun _ => 0) 1 n / 1) 1) ∧
    recursive_state_dLdC (fun _ _ => 0) (fun _ => 0) 1
        (fun _ => 0 : Fin 1 → ℕ) (fun _ => (0 : ℂ)) =
      ∑ x : (∀ i : Fin 1, Fin ((fun _ => 0 : Fin 1 → ℕ) i + 1)),
        (fun _ => (0 : ℂ) : (Fin 1 → ℕ) → ℂ) (fun i => (x i : ℕ)) *
          (starRingEnd ℂ) (hermite_renormalized (fun _ _ => 0) (fun _ => 0) 1
            (fun i => (x i : ℕ)) / 1)) :=
  ⟨one_ne_zero, C3_grad_C (fun _ _ => 0) (fun _ => 0) 1 one_ne_zero
    (fun _ => 0) (fun _ => 0)⟩

/-- C5: the engine rejects invalid inputs at entry — negative cutoffs give an
invalid-argument error, a non-square `A` or mismatched `B` a shape-mismatch
error, and a returned tensor is always completely filled. -/
theorem C5_failure_semantics (A : List (List ℂ)) (B : List ℂ) (C : ℂ)
    (cutoffs : List ℤ) :
    ((∃ c ∈ cutoffs, c < 0) →
      fill_fock_amplitudes_checked A B C cutoffs = .error .invalidArgument) ∧
    ((∀ c ∈ cutoffs, 0 ≤ c) →
      (A.length ≠ B.length ∨ (∃ r ∈ A, r.length ≠ B.length)) →
      fill_fock_amplitudes_checked A B C cutoffs = .error .shapeMismatch) ∧
    (∀ T, fill_fock_amplitudes_checked A B C cutoffs = .ok T →
      ∀ n : Fin B.length → ℕ,
        T n = fill_fock_amplitudes (fun i j => (A.getD i.1 []).getD j.1 0)
          (fun i => B.getD i.1 0) C (fun i => (cutoffs.getD i.1 0).toNat) n) := by
  refine ⟨?_, ?_, ?_⟩
  · intro h
    unfold fill_fock_amplitudes_checked
    rw [if_pos]
    simp only [List.any_eq_true, decide_eq_true_eq]
    obtain ⟨c, hc, hlt⟩ := h
    exact ⟨c, hc, hlt⟩
  · intro h1 h2
    unfold fill_fock_amplitudes_checked
    rw [if_neg, if_pos]
    · exact Or.elim h2 Or.inl (fun h => Or.inr (Or.inl h))
    · simp only [List.any_eq_true, decide_eq_true_eq]
      rintro ⟨c, hc, hlt⟩
      have := h1 c hc
      omega
  · intro T hT n
    unfold fill_fock_amplitudes_checked at hT
    split at hT
    · exact absurd hT (by simp)
    · split at hT
      · exact absurd hT (by simp)
      · injection hT with h
        rw [← h]

/-- C5 witness: a negative cutoff is rejected as invalid-argument, and a
non-square `A` is rejected as shape-mismatch. -/
theorem C5_failure_semantics_witness :
    ((∃ c ∈ [(-1 : ℤ)], c < 0) ∧
      fill_fock_amplitudes_checked [[0]] [0] 1 [(-1 : ℤ)] =
        .error .invalidArgument) ∧
    ((∀ c ∈ [(0 : ℤ)], (0 : ℤ) ≤ c) ∧
      ([[0], [0]] : List (List ℂ)).length ≠ ([0] : List ℂ).length ∧
      fill_fock_amplitudes_checked [[0], [0]] [0] 1 [(0 : ℤ)] =
        .error .shapeMismatch) := by
  refine ⟨⟨⟨-1, by simp, by norm_num⟩, ?_⟩, ⟨?_, ?_, ?_⟩⟩
  · exact (C5_failure_semantics [[0]] [0] 1 [(-1 : ℤ)]).1 ⟨-1, by simp, by norm_num⟩
  · intro c hc
    simp at hc
    omega
  · simp
  · exact (C5_failure_semantics [[0], [0]] [0] 1 [(0 : ℤ)]).2.1
      (by intro c hc; simp at hc; omega) (Or.inl (by simp))

/-- C6: increasing the cutoff of one axis by one leaves every entry within the
original cutoffs unchanged. -/
theorem C6_truncation_monotone {M : ℕ} (A : Fin M → Fin M → ℂ) (B : Fin M → ℂ)
    (C : ℂ) (cutoffs : Fin M → ℕ) (a : Fin M) (n : Fin M → ℕ)
    (h : ∀ i, n i ≤ cutoffs i) :
    fill_fock_amplitudes A B C (Function.update cutoffs a (cutoffs a + 1)) n =
      fill_fock_amplitudes A B C cutoffs n := by
  unfold fill_fock_amplitudes
  rw [if_pos h, if_pos]
  intro i
  by_cases hia : i = a
  · subst hia
    rw [Function.update_same]
    have := h i
    omega
  · rw [Function.update_noteq hia]
    exact h i

/-- C6 witness: the monotonicity theorem applied to the vacuum at the zero
cutoff box. -/
theorem C6_truncation_monotone_witness :
    (∀ i : Fin 1, (fun _ => 0 : Fin 1 → ℕ) i ≤ (fun _ => 0 : Fin 1 → ℕ) i) ∧
    fill_fock_amplitudes (fun _ _ => (0 : ℂ)) (fun _ => 0) 1
        (Function.update (fun _ => 0 : Fin 1 → ℕ) 0
          ((fun _ => 0 : Fin 1 → ℕ) 0 + 1)) (fun _ => 0) =
      fill_fock_amplitudes (fun _ _ => (0 : ℂ)) (fun _ => 0) 1
        (fun _ => 0 : Fin 1 → ℕ) (fun _ => 0) :=
  ⟨fun _ => le_refl _,
    C6_truncation_monotone (fun _ _ => 0) (fun _ => 0) 1 (fun _ => 0) 0
      (fun _ => 0) (fun _ => le_refl _)⟩

/-- C7: filling with a congruence-permuted triple and permuted cutoffs, then
permuting the tensor axes back, gives the original tensor (exactly). -/
theorem C7_symmetry {M : ℕ} (A : Fin M → Fin M → ℂ) (B : Fin M → ℂ) (C : ℂ)
    (hA : ∀ i j, A i j = A j i) (p : Equiv.Perm (Fin M)) (cutoffs : Fin M → ℕ)
    (n : Fin M → ℕ) :
    fill_fock_amplitudes (fun i j => A (p i) (p j)) (fun i => B (p i)) C
      (fun i => cutoffs (p i)) (fun i => n (p i)) =
    fill_fock_amplitudes A B C cutoffs n := by
  unfold fill_fock_amplitudes
  have hiff : (∀ i, n (p i) ≤ cutoffs (p i)) ↔ (∀ i, n i ≤ cutoffs i) := by
    constructor
    · intro h i
      have := h (p.symm i)
      simpa using this
    · intro h i
      exact h (p i)
  by_cases hin : ∀ i, n i ≤ cutoffs i
  · rw [if_pos (hiff.mpr hin), if_pos hin]
    exact hermite_renormalized_perm hA p n
  · rw [if_neg (fun h => hin (hiff.mp h)), if_neg hin]

/-- C7 witness: the symmetry theorem applied to a concrete symmetric one-mode
triple and the identity permutation. -/
theorem C7_symmetry_witness :
    (∀ i j : Fin 1, (fun _ _ => (0 : ℂ)) i j = (fun _ _ => (0 : ℂ)) j i) ∧
    fill_fock_amplitudes
        (fun i j => (fun _ _ => (0 : ℂ)) ((1 : Equiv.Perm (Fin 1)) i)
          ((1 : Equiv.Perm (Fin 1)) j))
        (fun i => (fun _ => (0 : ℂ)) ((1 : Equiv.Perm (Fin 1)) i)) 1
        (fun i => (fun _ => 0 : Fin 1 → ℕ) ((1 : Equiv.Perm (Fin 1)) i))
        (fun i => (fun _ => 0 : Fin 1 → ℕ) ((1 : Equiv.Perm (Fin 1)) i)) =
      fill_fock_amplitudes (fun _ _ => (0 : ℂ)) (fun _ => 0) 1
        (fun _ => 0 : Fin 1 → ℕ) (fun _ => 0) :=
  ⟨fun _ _ => rfl,
    C7_symmetry (fun _ _ => 0) (fun _ => 0) 1 (fun _ _ => rfl) 1
      (fun _ => 0) (fun _ => 0)⟩

/-- C9 counterexample: the stub `NPMath.hermite_renormalized_diagonal`
(explicitly cited as an unsupported operation) returns `None` silently instead
of raising a not-implemented error. -/
theorem C9_counterexample :
    hermite_renormalized_diagonal [[0]] [0] 1 [1] = .ok none ∧
    ∀ e : PyError, hermite_renormalized_diagonal [[0]] [0] 1 [1] ≠ .error e :=
  ⟨rfl, fun _ h => Except.noConfusion h⟩

/-- C9 amended: operations explicitly marked not-implemented
(`SymplecticData.__truediv__`) raise `NotImplementedError`, but the stub
`NPMath.hermite_renormalized_diagonal` silently returns `None` instead of
raising. -/
theorem C9_amended :
    (∀ (mT vT cT oT : Type) (s : SymplecticData mT vT cT) (o : oT),
      SymplecticData.truediv s o = .error .notImplementedError) ∧
    (∀ (A : List (List ℂ)) (B : List ℂ) (C : ℂ) (cutoffs : List ℕ),
      hermite_renormalized_diagonal A B C cutoffs = .ok none) :=
  ⟨fun _ _ _ _ _ _ => rfl, fun _ _ _ _ => rfl⟩

end MrMustard
